import Mathlib

/-!
Shallow embedding of `githubgql.py` (the `graphql` function: transport with
retry/backoff, and the recursive depagination engine), together with proofs
about its behaviour.

JSON values are modelled by the inductive type `J`; Python `dict`s become
association lists, Python in-place mutation of the response tree becomes
functional update along an access path (`updatePathE`), and Python's untyped
runtime failures (`KeyError`, `IndexError`, `TypeError`) become explicit
error values alongside the library's three typed errors.
-/

/-- A decoded JSON value (`reply.json()` and everything below it). -/
inductive J where
  | null : J
  | b : Bool → J
  | s : String → J
  | num : Int → J
  | arr : List J → J
  | obj : List (String × J) → J

/-- One step of a Python subscript: a map key (`obj[name]`) or a list index
(`nodes[i]`, produced by `current_path_nodes += ["nodes", i]`). -/
inductive Key where
  | str : String → Key
  | idx : Nat → Key
  deriving DecidableEq, Repr

/-- The failure outcomes of `graphql`: the library's three typed exception
classes (`TokenError`, `HTTPError`, `GraphQLError`) plus Python's builtin
untyped errors raised by subscripting/popping, plus fuel exhaustion of the
model (the Python code has no fuel; theorems always supply enough). -/
inductive PyErr where
  | tokenError : PyErr
  | httpError : Nat → PyErr
  | graphQLError : J → PyErr
  | keyError : String → PyErr
  | indexError : PyErr
  | typeError : PyErr
  | fuel : PyErr

/-- Python `dict` read: first entry with the given key. -/
def lookupJ : List (String × J) → String → Option J
  | [], _ => none
  | (k, v) :: fs, key => if k = key then some v else lookupJ fs key

/-- Python `dict` assignment `d[key] = v`: replace if present, append if not. -/
def setJ : List (String × J) → String → J → List (String × J)
  | [], key, v => [(key, v)]
  | (k, w) :: fs, key, v => if k = key then (k, v) :: fs else (k, w) :: setJ fs key v

/-- Python `dict.pop(key)`'s removal effect. -/
def removeJ : List (String × J) → String → List (String × J)
  | [], _ => []
  | (k, w) :: fs, key => if k = key then fs else (k, w) :: removeJ fs key

/-- Python subscript `container[key]`, with Python's error classification:
missing dict key raises `KeyError`, out-of-range list index raises
`IndexError`, subscripting anything else raises `TypeError`. -/
def getKeyE : J → Key → Except PyErr J
  | .obj fs, .str k =>
    match lookupJ fs k with
    | some v => .ok v
    | none => .error (.keyError k)
  | .arr xs, .idx n =>
    match xs[n]? with
    | some v => .ok v
    | none => .error .indexError
  | _, _ => .error .typeError

/-- Repeated subscripting along a path (`for name in path: obj = obj[name]`). -/
def getPathE : J → List Key → Except PyErr J
  | j, [] => .ok j
  | j, k :: ks =>
    match getKeyE j k with
    | .error e => .error e
    | .ok v => getPathE v ks

/-- In-place mutation at the end of an access path, modelled functionally:
descend along `p`, apply `f` to the value found there, and rebuild the
surrounding tree.  Descent errors are exactly those of `getPathE`. -/
def updatePathE : J → List Key → (J → Except PyErr J) → Except PyErr J
  | j, [], f => f j
  | .obj fs, .str k :: ks, f =>
    match lookupJ fs k with
    | none => .error (.keyError k)
    | some v =>
      match updatePathE v ks f with
      | .error e => .error e
      | .ok v' => .ok (.obj (setJ fs k v'))
  | .arr xs, .idx n :: ks, f =>
    match xs[n]? with
    | none => .error .indexError
    | some v =>
      match updatePathE v ks f with
      | .error e => .error e
      | .ok v' => .ok (.arr (xs.set n v'))
  | _, _ :: _, _ => .error .typeError

/-- Python truthiness of a JSON value (`if pi["hasNextPage"]:`). -/
def truthy : J → Bool
  | .null => false
  | .b v => v
  | .s v => v ≠ ""
  | .num n => n ≠ 0
  | .arr xs => !xs.isEmpty
  | .obj fs => !fs.isEmpty

/-- The effect of `obj.pop("pageInfo")` on the owning object. -/
def popPI : J → Except PyErr J
  | .obj fs => .ok (.obj (removeJ fs "pageInfo"))
  | _ => .error .typeError

/-- The effect of `obj["nodes"].extend(next["nodes"])` on the `nodes` list. -/
def extendF (ns : J) : J → Except PyErr J
  | .arr xs =>
    match ns with
    | .arr ys => .ok (.arr (xs ++ ys))
    | _ => .error .typeError
  | _ => .error .typeError

/-- The effect of `obj_nested["nodes"] = next_nested["nodes"]` on the nested
connection object. -/
def setNodesF (ns : J) : J → Except PyErr J
  | .obj fs => .ok (.obj (setJ fs "nodes" ns))
  | _ => .error .typeError

/-- The simultaneous descent of lines 199-201
(`obj_nested = obj_nested[name]; next_nested = next_nested[name]`). -/
def descend2 : J → J → List Key → Except PyErr (J × J)
  | a, b, [] => .ok (a, b)
  | a, b, k :: ks =>
    match getKeyE a k with
    | .error e => .error e
    | .ok a' =>
      match getKeyE b k with
      | .error e => .error e
      | .ok b' => descend2 a' b' ks

/-- A cursor node of the cursor tree: either the bare path-list shorthand
(`cursors[cursor]` given as a list, lines 133-136) or the dict form with a
`path` and an optional `next` mapping. -/
inductive CNode where
  | bare : List String → CNode
  | node : List String → Option (List (String × CNode)) → CNode

/-- A cursor tree: mapping from cursor variable name to cursor node.
Python dict iteration order (insertion order) becomes list order. -/
abbrev CTree := List (String × CNode)

/-- The variable bindings `kwargs`. -/
abbrev VarMap := List (String × J)

/-- `cursors[cursor]['path']` after normalization (normalizing a bare list
to `{path: ...}` is idempotent and only observable through these two
accessors, so the model normalizes at each use). -/
def CNode.pathOf : CNode → List String
  | .bare p => p
  | .node p _ => p

/-- `cursors[cursor].get('next')` after normalization. -/
def CNode.nextOf : CNode → Option CTree
  | .bare _ => none
  | .node _ nx => nx

/-- Cursor paths contain only map keys. -/
def strPath (p : List String) : List Key := p.map Key.str

/-- `retry_codes = [403, 429, 500, 502, 503, 504]`. -/
def retryCodes : List Nat := [403, 429, 500, 502, 503, 504]

/-- The characters of a string up to the first `(`: `query.split("(")[0]`. -/
def beforeParen : List Char → List Char
  | [] => []
  | c :: cs => if c = '(' then [] else c :: beforeParen cs

/-- The mutation check of line 111: the query text before the first `(`
equals the literal `mutation` (no trimming, exact match). -/
def isMutation (q : String) : Bool := beforeParen q.toList == "mutation".toList

/-- The credential check of lines 93-98:
`token is not None and len(token) > 0`. -/
def tokenOk : Option String → Bool
  | none => false
  | some t => decide (0 < t.length)

/-- One HTTP reply as seen by the client: status code and decoded JSON body. -/
structure Reply where
  status : Nat
  body : J

/-- Index of the final attempt of the retry loop (lines 112-117), starting
from attempt index `k` with `remaining` retries left in the budget.  The
attempt index always equals `attempted_retries` because both advance
together. -/
def attemptsFrom (statuses : Nat → Nat) : Nat → Nat → Nat
  | 0, k => k
  | remaining + 1, k =>
    if statuses k ∈ retryCodes then attemptsFrom statuses remaining (k + 1) else k

/-- Number of retries the loop performs from attempt index `k` with
`remaining` budget. -/
def retriesFrom (statuses : Nat → Nat) : Nat → Nat → Nat
  | 0, _ => 0
  | remaining + 1, k =>
    if statuses k ∈ retryCodes then retriesFrom statuses remaining (k + 1) + 1 else 0

/-- `backoff = 2 ** (attempted_retries - 1)` with Python integer/float
semantics: exact value `2^(k-1)` as a rational (so `0.5` for `k = 0`). -/
def backoff (k : Nat) : ℚ := (2 : ℚ) ^ ((k : ℤ) - 1)

/-- Observable transport events: a sleep of a given duration, or an HTTP
POST (identified by its attempt index). -/
inductive Ev where
  | sleep : ℚ → Ev
  | request : Nat → Ev
  deriving DecidableEq, Repr

/-- The events of the retry loop: while the current status is retryable and
budget remains, sleep `backoff` seconds and re-issue the request. -/
def retryTrace (statuses : Nat → Nat) : Nat → Nat → List Ev
  | 0, _ => []
  | remaining + 1, k =>
    if statuses k ∈ retryCodes then
      .sleep (backoff k) :: .request (k + 1) :: retryTrace statuses remaining (k + 1)
    else []

/-- The full event trace of one transport interaction (lines 93-117): no
event at all without a token; otherwise the initial POST of line 104
followed, for non-mutations only, by the retry loop's events. -/
def executeTrace (query : String) (token : Option String) (maxRetries : Nat)
    (statuses : Nat → Nat) : List Ev :=
  if tokenOk token then
    .request 0 :: (if isMutation query then [] else retryTrace statuses maxRetries 0)
  else []

/-- Number of HTTP requests in an event trace. -/
def countRequests : List Ev → Nat
  | [] => 0
  | .request _ :: es => countRequests es + 1
  | .sleep _ :: es => countRequests es

/-- The check loop of lines 173-186: a recursive call is required for this
element when some nested cursor's connection has another page or has nested
cursors of its own.  The Python loop inspects every nested cursor (no early
exit), so errors of later iterations surface even after the flag is set. -/
def checkRequired : CTree → J → Except PyErr Bool
  | [], _ => .ok false
  | (_, nc) :: rest, nodeData =>
    match getPathE nodeData (strPath nc.pathOf) with
    | .error e => .error e
    | .ok pageToCheck =>
      match getKeyE pageToCheck (.str "pageInfo") with
      | .error e => .error e
      | .ok piJ =>
        match getKeyE piJ (.str "hasNextPage") with
        | .error e => .error e
        | .ok hnp =>
          match checkRequired rest nodeData with
          | .error e => .error e
          | .ok brest => .ok (truthy hnp || nc.nextOf.isSome || brest)

/-- The weld loop of lines 194-202: for each nested cursor, replace the
`nodes` value of the nested connection in `data` by the one found at the
same path in the recursive call's result. -/
def weld : CTree → List Key → J → J → Except PyErr J
  | [], _, _, data => .ok data
  | (_, nc) :: rest, cpn, nextD, data =>
    match descend2 data nextD (cpn ++ strPath nc.pathOf) with
    | .error e => .error e
    | .ok (_, nextNested) =>
      match getKeyE nextNested (.str "nodes") with
      | .error e => .error e
      | .ok newNodes =>
        match updatePathE data (cpn ++ strPath nc.pathOf) (setNodesF newNodes) with
        | .error e => .error e
        | .ok data' => weld rest cpn nextD data'

/-- The per-element loop of lines 156-202, iterating `i` over the indices of
the connection's `nodes`.  `rec` is the recursive `graphql` call with this
frame's query/token/retry arguments fixed. -/
def goElems (rec : Option CTree → List Key → VarMap → Except PyErr (J × Nat))
    (nextTree : CTree) (prevPath currentPath : List Key) (kwargs : VarMap) :
    Nat → Nat → J → Nat → Except PyErr (J × Nat)
  | 0, _, data, cnt => .ok (data, cnt)
  | rem + 1, i, data, cnt =>
    match getPathE data
        ((if prevPath.isEmpty then currentPath else prevPath) ++ [.str "nodes", .idx i]) with
    | .error e => .error e
    | .ok nodeData =>
      match checkRequired nextTree nodeData with
      | .error e => .error e
      | .ok req =>
        if req then
          match rec (some nextTree)
              ((if prevPath.isEmpty then currentPath else prevPath) ++ [.str "nodes", .idx i])
              kwargs with
          | .error e => .error e
          | .ok (nextD, c2) =>
            match weld nextTree
                ((if prevPath.isEmpty then currentPath else prevPath) ++ [.str "nodes", .idx i])
                nextD data with
            | .error e => .error e
            | .ok data' =>
              goElems rec nextTree prevPath currentPath kwargs rem (i + 1) data' (cnt + c2)
        else goElems rec nextTree prevPath currentPath kwargs rem (i + 1) data cnt

/-- The main cursor loop of lines 131-202.  For each cursor: locate the
connection, pop its `pageInfo`; if `hasNextPage`, bind the cursor variable
to `endCursor`, recurse for the following pages and extend `nodes`;
otherwise, if nested cursors exist, run the per-element loop.  The mutation
of `kwargs` persists across loop iterations but never flows back from a
recursive call. -/
def goCursors (rec : Option CTree → List Key → VarMap → Except PyErr (J × Nat)) :
    CTree → List Key → VarMap → J → Nat → Except PyErr (J × Nat)
  | [], _, _, data, cnt => .ok (data, cnt)
  | (cname, cn) :: rest, prevPath, kwargs, data, cnt =>
    match getPathE data
        (if prevPath.isEmpty then strPath cn.pathOf else prevPath ++ strPath cn.pathOf) with
    | .error e => .error e
    | .ok obj =>
      match getKeyE obj (.str "pageInfo") with
      | .error e => .error e
      | .ok pi =>
        match updatePathE data
            (if prevPath.isEmpty then strPath cn.pathOf else prevPath ++ strPath cn.pathOf)
            popPI with
        | .error e => .error e
        | .ok data1 =>
          match getKeyE pi (.str "hasNextPage") with
          | .error e => .error e
          | .ok hnp =>
            if truthy hnp then
              match getKeyE pi (.str "endCursor") with
              | .error e => .error e
              | .ok endCur =>
                match rec (some [(cname, cn)]) prevPath (setJ kwargs cname endCur) with
                | .error e => .error e
                | .ok (nextD, c2) =>
                  match getPathE nextD
                      (if prevPath.isEmpty then strPath cn.pathOf
                       else prevPath ++ strPath cn.pathOf) with
                  | .error e => .error e
                  | .ok nextObj =>
                    match getKeyE nextObj (.str "nodes") with
                    | .error e => .error e
                    | .ok nextNodes =>
                      match updatePathE data1
                          ((if prevPath.isEmpty then strPath cn.pathOf
                            else prevPath ++ strPath cn.pathOf) ++ [.str "nodes"])
                          (extendF nextNodes) with
                      | .error e => .error e
                      | .ok data2 =>
                        goCursors rec rest prevPath (setJ kwargs cname endCur) data2 (cnt + c2)
            else
              match cn.nextOf with
              | some nextTree =>
                match getPathE data1
                    (if prevPath.isEmpty then strPath cn.pathOf
                     else prevPath ++ strPath cn.pathOf) with
                | .error e => .error e
                | .ok conn =>
                  match getKeyE conn (.str "nodes") with
                  | .error e => .error e
                  | .ok nodesJ =>
                    match nodesJ with
                    | .arr elems =>
                      match goElems rec nextTree prevPath
                          (if prevPath.isEmpty then strPath cn.pathOf
                           else prevPath ++ strPath cn.pathOf)
                          kwargs elems.length 0 data1 cnt with
                      | .error e => .error e
                      | .ok (data2, cnt2) => goCursors rec rest prevPath kwargs data2 cnt2
                    | _ => .error .typeError
              | none => goCursors rec rest prevPath kwargs data1 cnt

/-- The `graphql` function itself.  `Srv kwargs k` is the reply the endpoint
gives to the `k`-th POST of the body `{query, variables := kwargs}` (retries
re-POST identical parameters, recursive calls POST evolved `kwargs`).
Transport (lines 88-126): token check, retry loop (skipped for mutations),
HTTP status check, GraphQL `errors` check, extraction of `data`.
Depagination (lines 128-203): the cursor loop.  The returned `Nat` counts
the HTTP requests issued by this call and all recursive calls.  `fuel`
bounds recursion depth (a model artifact; the Python code recurses freely). -/
def graphql (Srv : VarMap → Nat → Reply) (query : String) (token : Option String)
    (maxRetries : Nat) : Nat → Option CTree → List Key → VarMap → Except PyErr (J × Nat)
  | 0, _, _, _ => .error .fuel
  | fuel + 1, cursors, prevPath, kwargs =>
    if tokenOk token then
      match Srv kwargs (attemptsFrom (fun k => (Srv kwargs k).status)
          (if isMutation query then 0 else maxRetries) 0) with
      | ⟨200, .obj fs⟩ =>
        (match lookupJ fs "errors" with
        | some errs => .error (.graphQLError errs)
        | none =>
          match lookupJ fs "data" with
          | some data =>
            (match cursors with
            | none => .ok (data, attemptsFrom (fun k => (Srv kwargs k).status)
                (if isMutation query then 0 else maxRetries) 0 + 1)
            | some cs =>
              goCursors (graphql Srv query token maxRetries fuel) cs prevPath kwargs data
                (attemptsFrom (fun k => (Srv kwargs k).status)
                  (if isMutation query then 0 else maxRetries) 0 + 1))
          | none => .error (.keyError "data"))
      | ⟨200, _⟩ => .error .typeError
      | ⟨st, _⟩ => .error (.httpError st)
    else .error .tokenError

/-- A server that always answers 200 with body `{data: S kwargs}`: the
setting of the depagination claims, where transport always succeeds. -/
def okServer (S : VarMap → J) : VarMap → Nat → Reply :=
  fun v _ => ⟨200, .obj [("data", S v)]⟩

mutual
/-- Decidable equality on JSON values, by mutual recursion through the
nested lists. -/
def decEqJ : (a c : J) → Decidable (a = c)
  | .null, .b _ => isFalse (fun h => J.noConfusion h)
  | .null, .s _ => isFalse (fun h => J.noConfusion h)
  | .null, .num _ => isFalse (fun h => J.noConfusion h)
  | .null, .arr _ => isFalse (fun h => J.noConfusion h)
  | .null, .obj _ => isFalse (fun h => J.noConfusion h)
  | .b _, .null => isFalse (fun h => J.noConfusion h)
  | .b _, .s _ => isFalse (fun h => J.noConfusion h)
  | .b _, .num _ => isFalse (fun h => J.noConfusion h)
  | .b _, .arr _ => isFalse (fun h => J.noConfusion h)
  | .b _, .obj _ => isFalse (fun h => J.noConfusion h)
  | .s _, .null => isFalse (fun h => J.noConfusion h)
  | .s _, .b _ => isFalse (fun h => J.noConfusion h)
  | .s _, .num _ => isFalse (fun h => J.noConfusion h)
  | .s _, .arr _ => isFalse (fun h => J.noConfusion h)
  | .s _, .obj _ => isFalse (fun h => J.noConfusion h)
  | .num _, .null => isFalse (fun h => J.noConfusion h)
  | .num _, .b _ => isFalse (fun h => J.noConfusion h)
  | .num _, .s _ => isFalse (fun h => J.noConfusion h)
  | .num _, .arr _ => isFalse (fun h => J.noConfusion h)
  | .num _, .obj _ => isFalse (fun h => J.noConfusion h)
  | .arr _, .null => isFalse (fun h => J.noConfusion h)
  | .arr _, .b _ => isFalse (fun h => J.noConfusion h)
  | .arr _, .s _ => isFalse (fun h => J.noConfusion h)
  | .arr _, .num _ => isFalse (fun h => J.noConfusion h)
  | .arr _, .obj _ => isFalse (fun h => J.noConfusion h)
  | .obj _, .null => isFalse (fun h => J.noConfusion h)
  | .obj _, .b _ => isFalse (fun h => J.noConfusion h)
  | .obj _, .s _ => isFalse (fun h => J.noConfusion h)
  | .obj _, .num _ => isFalse (fun h => J.noConfusion h)
  | .obj _, .arr _ => isFalse (fun h => J.noConfusion h)
  | .null, .null => isTrue rfl
  | .b a, .b c =>
    if h : a = c then isTrue (congrArg J.b h)
    else isFalse (fun hh => h (by cases hh; rfl))
  | .s a, .s c =>
    if h : a = c then isTrue (congrArg J.s h)
    else isFalse (fun hh => h (by cases hh; rfl))
  | .num a, .num c =>
    if h : a = c then isTrue (congrArg J.num h)
    else isFalse (fun hh => h (by cases hh; rfl))
  | .arr xs, .arr ys =>
    match decEqArrJ xs ys with
    | isTrue h => isTrue (congrArg J.arr h)
    | isFalse h => isFalse (fun hh => h (by cases hh; rfl))
  | .obj fs, .obj gs =>
    match decEqObjJ fs gs with
    | isTrue h => isTrue (congrArg J.obj h)
    | isFalse h => isFalse (fun hh => h (by cases hh; rfl))
def decEqArrJ : (xs ys : List J) → Decidable (xs = ys)
  | [], [] => isTrue rfl
  | [], _ :: _ => isFalse (fun h => List.noConfusion h)
  | _ :: _, [] => isFalse (fun h => List.noConfusion h)
  | x :: xs, y :: ys =>
    match decEqJ x y with
    | isFalse h => isFalse (fun hh => h (by cases hh; rfl))
    | isTrue h1 =>
      match decEqArrJ xs ys with
      | isTrue h2 => isTrue (by rw [h1, h2])
      | isFalse h2 => isFalse (fun hh => h2 (by cases hh; rfl))
def decEqObjJ : (fs gs : List (String × J)) → Decidable (fs = gs)
  | [], [] => isTrue rfl
  | [], _ :: _ => isFalse (fun h => List.noConfusion h)
  | _ :: _, [] => isFalse (fun h => List.noConfusion h)
  | (k, v) :: fs, (l, w) :: gs =>
    if hk : k = l then
      match decEqJ v w with
      | isTrue hv =>
        match decEqObjJ fs gs with
        | isTrue hr => isTrue (by rw [hk, hv, hr])
        | isFalse hr => isFalse (fun hh => hr (by cases hh; rfl))
      | isFalse hv => isFalse (fun hh => hv (by cases hh; rfl))
    else isFalse (fun hh => hk (by cases hh; rfl))
end

instance : DecidableEq J := decEqJ

deriving instance DecidableEq for PyErr
deriving instance DecidableEq for Except


/-- `p` is an initial segment of `q` (stepwise form, so that decidability is
definitional). -/
def KPfx : List Key → List Key → Prop
  | [], _ => True
  | _ :: _, [] => False
  | a :: p, b :: q => a = b ∧ KPfx p q

def instDecKPfx : (p q : List Key) → Decidable (KPfx p q)
  | [], _ => isTrue trivial
  | _ :: _, [] => isFalse (fun h => h)
  | _ :: p, _ :: q => @instDecidableAnd _ _ _ (instDecKPfx p q)

instance (p q : List Key) : Decidable (KPfx p q) := instDecKPfx p q

/-- A well-formed `pageInfo` object. -/
def mkPI (ec : J) (hnp : Bool) : J := .obj [("endCursor", ec), ("hasNextPage", .b hnp)]

/-- A well-formed connection object with no extra keys. -/
def mkConn (ec : J) (hnp : Bool) (nodes : List J) : J :=
  .obj [("pageInfo", mkPI ec hnp), ("nodes", .arr nodes)]

/-- Spec scenario 1: one connection, one page. -/
def srvSingle : VarMap → J := fun _ =>
  .obj [("repository", .obj [("issues",
    mkConn (.s "A") false [.obj [("number", .num 1)], .obj [("number", .num 2)]])])]

def ctSingle : CTree := [("c", .bare ["repository", "issues"])]

/-- Spec scenario 2: one connection, two pages keyed by cursor `c`. -/
def srvPages : VarMap → J := fun v =>
  match lookupJ v "c" with
  | none => .obj [("r", mkConn (.s "X") true [.num 1])]
  | some (.s "X") => .obj [("r", mkConn (.s "Y") false [.num 2])]
  | _ => .null

def ctPages : CTree := [("c", .bare ["r"])]

/-- Nested setting: outer connection `a` has one page whose single element
carries an inner connection `b` with two pages keyed by cursor `c2`. -/
def srvInner : VarMap → J := fun v =>
  match lookupJ v "c2" with
  | none => .obj [("a", mkConn (.s "A") false
      [.obj [("b", mkConn (.s "T") true [.num 1])]])]
  | some (.s "T") => .obj [("a", mkConn (.s "A") false
      [.obj [("b", mkConn .null false [.num 2])]])]
  | _ => .null

def ctInner : CTree := [("c1", .node ["a"] (some [("c2", .bare ["b"])]))]

/-- Two-page outer connection whose elements each carry a two-page inner
connection: outer pages keyed by `c1`, inner pages keyed by `c2`. -/
def elemP1 : J := .obj [("b", mkConn (.s "B1") true [.num 1])]
def elemP1b : J := .obj [("b", mkConn .null false [.num 2])]
def elemP2 : J := .obj [("b", mkConn (.s "B2") true [.num 3])]
def elemP2b : J := .obj [("b", mkConn .null false [.num 4])]

def srvBoth : VarMap → J := fun v =>
  match lookupJ v "c1", lookupJ v "c2" with
  | none, none => .obj [("a", mkConn (.s "A") true [elemP1])]
  | none, some (.s "B1") => .obj [("a", mkConn (.s "A") true [elemP1b])]
  | some (.s "A"), none => .obj [("a", mkConn (.s "A2") false [elemP2])]
  | some (.s "A"), some (.s "B2") => .obj [("a", mkConn (.s "A2") false [elemP2b])]
  | some (.s "A"), some (.s "B1") => .obj [("a", mkConn (.s "A2") false [elemP1b])]
  | _, _ => .null

def ctBoth : CTree := [("c1", .node ["a"] (some [("c2", .bare ["b"])]))]

/-- One page everywhere, one level of nesting: outer `a`, inner `b`. -/
def srvFlat : VarMap → J := fun _ =>
  .obj [("a", mkConn (.s "A") false [.obj [("b", mkConn (.s "B") false [.num 1])]])]

def ctFlat : CTree := [("c1", .node ["a"] (some [("c2", .bare ["b"])]))]

/-- A response with no `missing` key at the root of `data`. -/
def srvNoSeg : VarMap → J := fun _ => .obj [("present", .num 1)]

/-- A response whose connection object lacks `pageInfo`. -/
def srvNoPI : VarMap → J := fun _ => .obj [("a", .obj [("nodes", .arr [])])]

/-- Status sequence: always 500. -/
def st500 : Nat → Nat := fun _ => 500

/-- Status sequence: three 429s, then 200. -/
def stW : Nat → Nat := fun k => if k < 3 then 429 else 200

/-- A 200 reply whose body has both `data` and `errors`. -/
def srvErr : VarMap → Nat → Reply :=
  fun _ _ => ⟨200, .obj [("data", .null), ("errors", .arr [.obj [("message", .s "bad")]])]⟩

/-- A 200 reply with `data` and no `errors`. -/
def srvData : VarMap → Nat → Reply :=
  fun _ _ => ⟨200, .obj [("data", .obj [("x", .num 7)])]⟩

/-- One server page of a connection: the `pageInfo` fields and the `nodes`
list. -/
structure Page where
  endCursor : J
  hasNextPage : Bool
  nodes : List J

/-- A page chain is consistent when every page except the last reports
`hasNextPage = true` and the last reports `false`. -/
def ChainOk : List Page → Prop
  | [] => True
  | pg :: rest => pg.hasNextPage = !rest.isEmpty ∧ ChainOk rest

/-- The server serves the given pages for the connection at `p`, keyed by
cursor variable `c`: with bindings `v` the connection holds the first page,
and after binding `c` to that page's `endCursor` the remaining pages follow. -/
def ServesPages (S : VarMap → J) (c : String) (p : List String) :
    VarMap → List Page → Prop
  | _, [] => True
  | v, pg :: rest =>
    (∃ fs, getPathE (S v) (strPath p) = .ok (.obj fs) ∧
      lookupJ fs "pageInfo" = some (mkPI pg.endCursor pg.hasNextPage) ∧
      lookupJ fs "nodes" = some (.arr pg.nodes)) ∧
    ServesPages S c p (setJ v c pg.endCursor) rest

/-- One connection at `a` plus an unrelated sibling key `z`. -/
def srvExtra : VarMap → J := fun _ =>
  .obj [("a", mkConn (.s "A") false [.num 1]), ("z", .num 42)]

/-- The connection named by one cursor-tree entry is single-page in `data`:
well-shaped, `hasNextPage = false`, its nested cursors (if any) are leaves,
and every element's nested connection is also single-page. -/
def SinglePageConn (data : J) (cp : String × CNode) : Prop :=
  ∃ fs pif elems,
    getPathE data (strPath (cp.2 : CNode).pathOf) = .ok (.obj fs) ∧
    lookupJ fs "pageInfo" = some pif ∧
    getKeyE pif (.str "hasNextPage") = .ok (.b false) ∧
    lookupJ fs "nodes" = some (.arr elems) ∧
    (∀ cq ∈ (cp.2 : CNode).nextOf.getD [], (cq.2 : CNode).nextOf = none) ∧
    (∀ elem ∈ elems, ∀ cq ∈ (cp.2 : CNode).nextOf.getD [],
      ∃ fs' pif', getPathE elem (strPath (cq.2 : CNode).pathOf) = .ok (.obj fs') ∧
        lookupJ fs' "pageInfo" = some pif' ∧
        getKeyE pif' (.str "hasNextPage") = .ok (.b false))

/-- The server serves the given pages for the connection at `p`, whose first
page is already decoded in `data` (the current working tree): the remaining
pages follow from `S` once `c` is bound to the first page's `endCursor`.
With `data := S v` this is exactly `ServesPages`. -/
def ServesFrom (S : VarMap → J) (c : String) (p : List String) (data : J)
    (v : VarMap) : List Page → Prop
  | [] => True
  | pg :: rest =>
    (∃ fs, getPathE data (strPath p) = .ok (.obj fs) ∧
      lookupJ fs "pageInfo" = some (mkPI pg.endCursor pg.hasNextPage) ∧
      lookupJ fs "nodes" = some (.arr pg.nodes)) ∧
    ServesPages S c p (setJ v c pg.endCursor) rest

/-- Two sibling top-level connections: `a` has two pages keyed by cursor
`ca`, `b` has a single page; each connection's content depends only on its
own cursor variable. -/
def srvTwo : VarMap → J := fun v =>
  .obj [("a", if lookupJ v "ca" = some (.s "A1") then mkConn .null false [.num 2]
              else mkConn (.s "A1") true [.num 1]),
        ("b", mkConn .null false [.num 7])]

def ctTwo : CTree := [("ca", .bare ["a"]), ("cb", .bare ["b"])]

/-- The page assignment of `srvTwo`. -/
def pgTwo : String × CNode → List Page := fun cp =>
  if cp.1 = "ca" then [⟨.s "A1", true, [.num 1]⟩, ⟨.null, false, [.num 2]⟩]
  else [⟨.null, false, [.num 7]⟩]

theorem countRequests_retryTrace (st : Nat → Nat) :
    ∀ r k, countRequests (retryTrace st r k) = retriesFrom st r k := by
  intro r
  induction r with
  | zero => intro k; rfl
  | succ r ih =>
    intro k
    by_cases h : st k ∈ retryCodes
    · simp [retryTrace, retriesFrom, h, countRequests, ih]
    · simp [retryTrace, retriesFrom, h, countRequests]

theorem retriesFrom_le (st : Nat → Nat) : ∀ r k, retriesFrom st r k ≤ r := by
  intro r
  induction r with
  | zero => intro k; exact Nat.le_refl 0
  | succ r ih =>
    intro k
    by_cases h : st k ∈ retryCodes
    · simp only [retriesFrom, h, if_true]
      exact Nat.succ_le_succ (ih (k + 1))
    · simp [retriesFrom, h]

theorem retryTrace_closed (st : Nat → Nat) :
    ∀ r k, retryTrace st r k =
      ((List.range (retriesFrom st r k)).map
        (fun j => [Ev.sleep (backoff (k + j)), Ev.request (k + j + 1)])).flatten := by
  intro r
  induction r with
  | zero => intro k; rfl
  | succ r ih =>
    intro k
    by_cases h : st k ∈ retryCodes
    · have hmap : List.map ((fun j => [Ev.sleep (backoff (k + j)), Ev.request (k + j + 1)]) ∘
            Nat.succ) (List.range (retriesFrom st r (k + 1))) =
          List.map (fun j => [Ev.sleep (backoff (k + 1 + j)), Ev.request (k + 1 + j + 1)])
            (List.range (retriesFrom st r (k + 1))) := by
        apply List.map_congr_left
        intro j _
        simp only [Function.comp_apply, Nat.succ_eq_add_one]
        have h1 : k + (j + 1) = k + 1 + j := by omega
        rw [h1]
      simp only [retryTrace, retriesFrom, h, if_true, ih (k + 1),
        List.range_succ_eq_map, List.map_cons, List.flatten_cons]
      simp [hmap]
    · simp [retryTrace, retriesFrom, h]

theorem backoff_first_values : backoff 0 = 1/2 ∧ backoff 1 = 1 ∧ backoff 2 = 2 := by
  refine ⟨?_, ?_, ?_⟩ <;> norm_num [backoff]

/-- C6: for every non-mutation query and every status sequence, the trace is
the initial request followed, for each retry `j` (0-based), by a sleep of
exactly `2^(j-1)` seconds immediately before the retry request; the number
of HTTP attempts is `retries + 1 ≤ max_retries + 1`; and `max_retries = 0`
forces exactly one attempt. -/
theorem C6_backoff_and_attempts (q tokS : String) (mr : Nat) (st : Nat → Nat)
    (hm : isMutation q = false) (ht : tokenOk (some tokS) = true) :
    executeTrace q (some tokS) mr st =
      .request 0 :: ((List.range (retriesFrom st mr 0)).map
        (fun (j : Nat) => [Ev.sleep ((2 : ℚ) ^ ((j : ℤ) - 1)), Ev.request (j + 1)])).flatten ∧
    countRequests (executeTrace q (some tokS) mr st) = retriesFrom st mr 0 + 1 ∧
    retriesFrom st mr 0 ≤ mr ∧
    (mr = 0 → countRequests (executeTrace q (some tokS) mr st) = 1) := by
  have h0 : executeTrace q (some tokS) mr st = .request 0 :: retryTrace st mr 0 := by
    simp [executeTrace, ht, hm]
  refine ⟨?_, ?_, retriesFrom_le st mr 0, ?_⟩
  · rw [h0, retryTrace_closed]
    simp [backoff]
  · rw [h0]
    simp [countRequests, countRequests_retryTrace]
  · intro hmr
    subst hmr
    rw [h0]
    simp [countRequests, retryTrace]

theorem C6_backoff_and_attempts_witness :
    executeTrace "query" (some "t") 8 stW =
      .request 0 :: ((List.range (retriesFrom stW 8 0)).map
        (fun (j : Nat) => [Ev.sleep ((2 : ℚ) ^ ((j : ℤ) - 1)), Ev.request (j + 1)])).flatten ∧
    countRequests (executeTrace "query" (some "t") 8 stW) = retriesFrom stW 8 0 + 1 ∧
    retriesFrom stW 8 0 ≤ 8 ∧
    (8 = 0 → countRequests (executeTrace "query" (some "t") 8 stW) = 1) :=
  C6_backoff_and_attempts "query" "t" 8 stW rfl rfl

/-- C5 counterexample: the query text `mutation {x}` is already trimmed and
begins with `mutation` followed by a blank, but contains no `(`, so line 111
does not classify it as a mutation: with a server that always answers 500
and the default `max_retries = 8`, nine HTTP requests are issued, not one. -/
theorem C5_counterexample :
    List.isPrefixOf "mutation ".toList "mutation {x}".toList = true ∧
    countRequests (executeTrace "mutation {x}" (some "t") 8 st500) = 9 ∧
    countRequests (executeTrace "mutation {x}" (some "t") 8 st500) ≠ 1 := by
  refine ⟨by decide, by decide, by decide⟩

/-- C5 amended: a query is classified as a mutation exactly when its text up
to the first `(` equals the literal `mutation` (no trimming); such queries
are never retried: the trace holds exactly one request, whatever the status
sequence and retry budget. -/
theorem C5_mutation_no_retry (q tokS : String) (mr : Nat) (st : Nat → Nat)
    (hm : isMutation q = true) (ht : tokenOk (some tokS) = true) :
    executeTrace q (some tokS) mr st = [.request 0] ∧
    countRequests (executeTrace q (some tokS) mr st) = 1 := by
  constructor
  · simp [executeTrace, ht, hm]
  · simp [executeTrace, ht, hm, countRequests]

theorem C5_mutation_no_retry_witness :
    executeTrace "mutation($x:ID!){y}" (some "t") 3 st500 = [.request 0] ∧
    countRequests (executeTrace "mutation($x:ID!){y}" (some "t") 3 st500) = 1 :=
  C5_mutation_no_retry "mutation($x:ID!){y}" "t" 3 st500 rfl rfl

/-- C7: a missing or empty token fails with `TokenError` before any network
activity: the call returns the token error and the transport trace is empty. -/
theorem C7_token_guard (Srv : VarMap → Nat → Reply) (q : String) (mr fuel : Nat)
    (cursors : Option CTree) (prevPath : List Key) (kwargs : VarMap) (st : Nat → Nat)
    (tok : Option String) (h : tok = none ∨ tok = some "") :
    graphql Srv q tok mr (fuel + 1) cursors prevPath kwargs = .error .tokenError ∧
    executeTrace q tok mr st = [] := by
  rcases h with h | h <;> subst h <;>
    exact ⟨by simp [graphql, tokenOk], by simp [executeTrace, tokenOk]⟩

theorem C7_token_guard_witness :
    graphql (okServer srvSingle) "q" none 8 1 none [] [] = .error .tokenError ∧
    executeTrace "q" none 8 st500 = [] :=
  C7_token_guard (okServer srvSingle) "q" 8 0 none [] [] st500 none (Or.inl rfl)

/-- C8: on a 200 reply whose JSON body has an `errors` key, `graphql` raises
`GraphQLError` carrying that errors value verbatim, for every `cursors`
argument and regardless of `data`; when `errors` is absent, the object under
`data` is returned as-is (`cursors = none`) or handed to the cursor loop. -/
theorem C8_errors_precedence (Srv : VarMap → Nat → Reply) (q tokS : String)
    (mr fuel : Nat) (prevPath : List Key) (kwargs : VarMap) (fs : List (String × J))
    (ht : tokenOk (some tokS) = true)
    (hrep : Srv kwargs (attemptsFrom (fun k => (Srv kwargs k).status)
        (if isMutation q then 0 else mr) 0) = ⟨200, .obj fs⟩) :
    (∀ errs, lookupJ fs "errors" = some errs → ∀ cursors : Option CTree,
      graphql Srv q (some tokS) mr (fuel + 1) cursors prevPath kwargs =
        .error (.graphQLError errs)) ∧
    (∀ d, lookupJ fs "errors" = none → lookupJ fs "data" = some d →
      graphql Srv q (some tokS) mr (fuel + 1) none prevPath kwargs =
        .ok (d, attemptsFrom (fun k => (Srv kwargs k).status)
          (if isMutation q then 0 else mr) 0 + 1) ∧
      ∀ cs : CTree, graphql Srv q (some tokS) mr (fuel + 1) (some cs) prevPath kwargs =
        goCursors (graphql Srv q (some tokS) mr fuel) cs prevPath kwargs d
          (attemptsFrom (fun k => (Srv kwargs k).status)
            (if isMutation q then 0 else mr) 0 + 1)) := by
  constructor
  · intro errs he cursors
    simp [graphql, ht, hrep, he]
  · intro d he hd
    refine ⟨by simp [graphql, ht, hrep, he, hd], fun cs => by simp [graphql, ht, hrep, he, hd]⟩

theorem C8_errors_precedence_witness :
    graphql srvErr "q" (some "t") 8 3 (some ctSingle) [] [] =
      .error (.graphQLError (.arr [.obj [("message", .s "bad")]])) ∧
    graphql srvData "q" (some "t") 8 3 none [] [] = .ok (.obj [("x", .num 7)], 1) :=
  ⟨(C8_errors_precedence srvErr "q" "t" 8 2 [] []
      [("data", .null), ("errors", .arr [.obj [("message", .s "bad")]])] rfl rfl).1
      (.arr [.obj [("message", .s "bad")]]) rfl (some ctSingle),
   ((C8_errors_precedence srvData "q" "t" 8 2 [] []
      [("data", .obj [("x", .num 7)])] rfl rfl).2 (.obj [("x", .num 7)]) rfl rfl).1⟩

/-- C9: a path segment absent from the response, or a connection object
without `pageInfo`, makes `graphql` fail with Python's builtin `KeyError`,
which is none of the three typed errors (`TokenError`, `HTTPError`,
`GraphQLError`); no dedicated shape-error value exists. -/
theorem C9_shape_errors_are_keyerrors :
    graphql (okServer srvNoSeg) "q" (some "t") 8 3 (some [("c", .bare ["missing"])]) [] [] =
      .error (.keyError "missing") ∧
    graphql (okServer srvNoPI) "q" (some "t") 8 3 (some [("c", .bare ["a"])]) [] [] =
      .error (.keyError "pageInfo") ∧
    (∀ k : String, PyErr.keyError k ≠ .tokenError) ∧
    (∀ (k : String) (st : Nat), PyErr.keyError k ≠ .httpError st) ∧
    (∀ (k : String) (e : J), PyErr.keyError k ≠ .graphQLError e) :=
  ⟨by decide, by decide, fun _ h => PyErr.noConfusion h,
   fun _ _ h => PyErr.noConfusion h, fun _ _ h => PyErr.noConfusion h⟩

/-- C1 counterexample: with a nested cursor tree, outer connection `a` has a
single server page whose element carries inner connection `b`; after
depagination the `nodes` of `a` is not the concatenation of the per-page
`nodes` lists the server returned for `a`, because nested depagination
rewrote the element (inner `nodes` merged to `[1, 2]`). -/
theorem C1_counterexample :
    getPathE (srvInner []) [.str "a", .str "nodes"] =
      .ok (.arr [.obj [("b", mkConn (.s "T") true [.num 1])]]) ∧
    getPathE (srvInner []) [.str "a", .str "pageInfo", .str "hasNextPage"] = .ok (.b false) ∧
    (graphql (okServer srvInner) "q" (some "t") 8 5 (some ctInner) [] []).map
      (fun p => getPathE p.1 [.str "a", .str "nodes"]) =
      .ok (.ok (.arr [.obj [("b", mkConn (.s "T") true [.num 1, .num 2])]])) ∧
    (.arr [.obj [("b", mkConn (.s "T") true [.num 1, .num 2])]] : J) ≠
      .arr [.obj [("b", mkConn (.s "T") true [.num 1])]] :=
  ⟨by decide, by decide, by decide, by decide⟩

/-- C2 counterexample: in the same nested run, inner connection `b` was
visited (its two pages were merged into `nodes = [1, 2]`), yet it still
carries its `pageInfo` key in the returned tree: the weld step of lines
197-202 replaces only `nodes` and never removes the nested `pageInfo`. -/
theorem C2_counterexample :
    (graphql (okServer srvInner) "q" (some "t") 8 5 (some ctInner) [] []).map
      (fun p => (getPathE p.1 [.str "a", .str "nodes", .idx 0, .str "b", .str "pageInfo"],
                 getPathE p.1 [.str "a", .str "nodes", .idx 0, .str "b", .str "nodes"])) =
      .ok (.ok (mkPI (.s "T") true), .ok (.arr [.num 1, .num 2])) := by decide

/-- C3: with a two-page outer connection whose elements on both pages have
two-page inner connections, the element-level loop runs only in the
recursive frame that sees `hasNextPage = false`, i.e. only over the second
page's elements: the returned tree has the page-2 element fully resolved
(inner `nodes = [3, 4]`) while the page-1 element keeps only its first inner
page (`nodes = [1]`, `pageInfo` intact) even though the server holds its
second inner page (`[2]`). -/
theorem C3_page1_elements_unresolved :
    (graphql (okServer srvBoth) "q" (some "t") 8 8 (some ctBoth) [] []).map
      (fun p => (getPathE p.1 [.str "a", .str "nodes", .idx 0, .str "b"],
                 getPathE p.1 [.str "a", .str "nodes", .idx 1, .str "b"], p.2)) =
      .ok (.ok (mkConn (.s "B1") true [.num 1]),
           .ok (mkConn (.s "B2") true [.num 3, .num 4]), 4) ∧
    getPathE (srvBoth [("c2", .s "B1")])
      [.str "a", .str "nodes", .idx 0, .str "b", .str "nodes"] = .ok (.arr [.num 2]) :=
  ⟨by decide, by decide⟩

/-- C4 counterexample: one level of nesting, every connection single-page
(`hasNextPage = false` everywhere): the call issues exactly one request, but
the nested connection `c2` named in the tree keeps its `pageInfo`, so the
claim's `removes pageInfo from every connection named in the tree` fails. -/
theorem C4_counterexample :
    getPathE (srvFlat []) [.str "a", .str "pageInfo", .str "hasNextPage"] = .ok (.b false) ∧
    getPathE (srvFlat []) [.str "a", .str "nodes", .idx 0, .str "b", .str "pageInfo",
      .str "hasNextPage"] = .ok (.b false) ∧
    (graphql (okServer srvFlat) "q" (some "t") 8 5 (some ctFlat) [] []).map
      (fun p => (p.2, getPathE p.1 [.str "a", .str "nodes", .idx 0, .str "b", .str "pageInfo"])) =
      .ok (1, .ok (mkPI (.s "B") false)) :=
  ⟨by decide, by decide, by decide⟩

theorem lookupJ_setJ_self (fs : List (String × J)) (k : String) (v : J) :
    lookupJ (setJ fs k v) k = some v := by
  induction fs with
  | nil => simp [setJ, lookupJ]
  | cons hd tl ih =>
    obtain ⟨k0, v0⟩ := hd
    by_cases h : k0 = k
    · simp [setJ, lookupJ, h]
    · simp [setJ, lookupJ, h, ih]

theorem lookupJ_setJ_ne (fs : List (String × J)) (k k' : String) (v : J) (h : k' ≠ k) :
    lookupJ (setJ fs k v) k' = lookupJ fs k' := by
  have h' : ¬ (k = k') := Ne.symm h
  induction fs with
  | nil => simp [setJ, lookupJ, h']
  | cons hd tl ih =>
    obtain ⟨k0, v0⟩ := hd
    by_cases h0 : k0 = k
    · subst h0
      simp [setJ, lookupJ, h']
    · simp only [setJ, h0, if_false]
      by_cases h1 : k0 = k'
      · simp [lookupJ, h1]
      · simp [lookupJ, h1, ih]

theorem lookupJ_removeJ_ne (fs : List (String × J)) (k k' : String) (h : k' ≠ k) :
    lookupJ (removeJ fs k) k' = lookupJ fs k' := by
  have h' : ¬ (k = k') := Ne.symm h
  induction fs with
  | nil => simp [removeJ]
  | cons hd tl ih =>
    obtain ⟨k0, v0⟩ := hd
    by_cases h0 : k0 = k
    · subst h0
      simp [removeJ, lookupJ, h']
    · simp only [removeJ, h0, if_false]
      by_cases h1 : k0 = k'
      · simp [lookupJ, h1]
      · simp [lookupJ, h1, ih]

theorem lookupJ_eq_none_of_not_mem (fs : List (String × J)) (k : String)
    (h : k ∉ fs.map Prod.fst) : lookupJ fs k = none := by
  induction fs with
  | nil => rfl
  | cons hd tl ih =>
    obtain ⟨k0, v0⟩ := hd
    simp only [List.map_cons, List.mem_cons] at h
    push_neg at h
    have h1 : ¬ (k0 = k) := Ne.symm h.1
    simp [lookupJ, h1, ih h.2]

theorem lookupJ_removeJ_self (fs : List (String × J)) (k : String)
    (h : (fs.map Prod.fst).Nodup) : lookupJ (removeJ fs k) k = none := by
  induction fs with
  | nil => rfl
  | cons hd tl ih =>
    obtain ⟨k0, v0⟩ := hd
    simp only [List.map_cons, List.nodup_cons] at h
    by_cases h0 : k0 = k
    · subst h0
      simp only [removeJ, if_true]
      exact lookupJ_eq_none_of_not_mem tl k0 h.1
    · simp [removeJ, lookupJ, h0, ih h.2]

theorem KPfx_refl : ∀ p : List Key, KPfx p p := by
  intro p
  induction p with
  | nil => trivial
  | cons a p ih => exact ⟨rfl, ih⟩

theorem KPfx_append_right : ∀ (p t : List Key), KPfx p (p ++ t) := by
  intro p
  induction p with
  | nil => intro t; trivial
  | cons a p ih => intro t; exact ⟨rfl, ih t⟩

theorem KPfx_iff_exists : ∀ p q : List Key, KPfx p q ↔ ∃ t, q = p ++ t := by
  intro p
  induction p with
  | nil => intro q; simp [KPfx]
  | cons a p ih =>
    intro q
    cases q with
    | nil =>
      simp only [KPfx]
      constructor
      · intro h; exact absurd h id
      · rintro ⟨t, ht⟩; cases ht
    | cons b q =>
      simp only [KPfx, ih q]
      constructor
      · rintro ⟨rfl, t, rfl⟩; exact ⟨t, rfl⟩
      · rintro ⟨t, ht⟩
        injection ht with h1 h2
        exact ⟨h1.symm, t, h2⟩

theorem KPfx_trans {a b c : List Key} (h1 : KPfx a b) (h2 : KPfx b c) : KPfx a c := by
  rw [KPfx_iff_exists] at h1 h2 ⊢
  obtain ⟨t1, rfl⟩ := h1
  obtain ⟨t2, rfl⟩ := h2
  exact ⟨t1 ++ t2, List.append_assoc a t1 t2⟩

theorem KPfx_comparable : ∀ {a b c : List Key}, KPfx a c → KPfx b c → KPfx a b ∨ KPfx b a := by
  intro a
  induction a with
  | nil => intro b c _ _; left; trivial
  | cons x a ih =>
    intro b c h1 h2
    cases b with
    | nil => right; trivial
    | cons y b =>
      cases c with
      | nil => exact absurd h1 id
      | cons z c =>
        obtain ⟨rfl, h1'⟩ := h1
        obtain ⟨rfl, h2'⟩ := h2
        rcases ih h1' h2' with h | h
        · exact Or.inl ⟨rfl, h⟩
        · exact Or.inr ⟨rfl, h⟩

theorem KPfx_concat {q p : List Key} {x : Key} (h : KPfx q (p ++ [x])) :
    KPfx q p ∨ q = p ++ [x] := by
  rw [KPfx_iff_exists] at h
  obtain ⟨t, ht⟩ := h
  cases t with
  | nil => right; simpa using ht.symm
  | cons y t =>
    left
    rw [KPfx_iff_exists]
    have hlen : p.length + 1 = q.length + (t.length + 1) := by
      simpa using congrArg List.length ht
    have hql : q.length ≤ p.length := by omega
    have h1 : (p ++ [x]).take q.length = q := by
      rw [ht]
      exact List.take_left q (y :: t)
    have h2 : (p ++ [x]).take q.length = p.take q.length :=
      List.take_append_of_le_length hql
    have hq : q = p.take q.length := by
      rw [← h2]
      exact h1.symm
    refine ⟨p.drop q.length, ?_⟩
    have h3 : p = p.take q.length ++ p.drop q.length := (List.take_append_drop q.length p).symm
    conv_lhs => rw [h3]
    rw [← hq]

theorem getPathE_append : ∀ (p q : List Key) (j : J),
    getPathE j (p ++ q) =
      match getPathE j p with
      | .error e => .error e
      | .ok v => getPathE v q := by
  intro p
  induction p with
  | nil => intro q j; simp [getPathE]
  | cons k ks ih =>
    intro q j
    cases hk : getKeyE j k with
    | error e => simp [getPathE, hk]
    | ok v => simp [getPathE, hk, ih]

theorem getKeyE_ok_str {j : J} {s : String} {v : J} (h : getKeyE j (.str s) = .ok v) :
    ∃ fs, j = .obj fs ∧ lookupJ fs s = some v := by
  cases j <;> simp [getKeyE] at h
  case obj fs =>
    cases hl : lookupJ fs s with
    | none => rw [hl] at h; cases h
    | some w => rw [hl] at h; cases h; exact ⟨fs, rfl, hl⟩

theorem updatePathE_ok : ∀ (p : List Key) (j j' : J) (f : J → Except PyErr J),
    updatePathE j p f = .ok j' →
    ∃ v v', getPathE j p = .ok v ∧ f v = .ok v' ∧ getPathE j' p = .ok v' := by
  intro p
  induction p with
  | nil =>
    intro j j' f h
    simp only [updatePathE] at h
    exact ⟨j, j', rfl, h, rfl⟩
  | cons k ks ih =>
    intro j j' f h
    cases j with
    | obj fs =>
      cases k with
      | str s =>
        cases hl : lookupJ fs s with
        | none => simp [updatePathE, hl] at h
        | some v0 =>
          simp only [updatePathE, hl] at h
          cases hu : updatePathE v0 ks f with
          | error e =>
            simp only [hu] at h
            exact Except.noConfusion h
          | ok w' =>
            simp only [hu] at h
            injection h with h
            subst h
            obtain ⟨v, v', h1, h2, h3⟩ := ih v0 w' f hu
            refine ⟨v, v', ?_, h2, ?_⟩
            · simp [getPathE, getKeyE, hl, h1]
            · simp [getPathE, getKeyE, lookupJ_setJ_self, h3]
      | idx n => simp [updatePathE] at h
    | arr xs =>
      cases k with
      | str s => simp [updatePathE] at h
      | idx n =>
        cases hl : xs[n]? with
        | none => simp [updatePathE, hl] at h
        | some v0 =>
          simp only [updatePathE, hl] at h
          cases hu : updatePathE v0 ks f with
          | error e =>
            simp only [hu] at h
            exact Except.noConfusion h
          | ok w' =>
            simp only [hu] at h
            injection h with h
            subst h
            obtain ⟨v, v', h1, h2, h3⟩ := ih v0 w' f hu
            have hn : n < xs.length := by
              by_contra hge
              rw [List.getElem?_eq_none (Nat.le_of_not_lt hge)] at hl
              cases hl
            refine ⟨v, v', ?_, h2, ?_⟩
            · simp [getPathE, getKeyE, hl, h1]
            · simp [getPathE, getKeyE, List.getElem?_set_eq_of_lt _ hn, h3]
    | null => simp [updatePathE] at h
    | b v => simp [updatePathE] at h
    | s v => simp [updatePathE] at h
    | num v => simp [updatePathE] at h

theorem updatePathE_exists : ∀ (p : List Key) (j v v' : J) (f : J → Except PyErr J),
    getPathE j p = .ok v → f v = .ok v' →
    ∃ j', updatePathE j p f = .ok j' := by
  intro p
  induction p with
  | nil =>
    intro j v v' f hg hf
    cases hg
    exact ⟨v', by simp [updatePathE, hf]⟩
  | cons k ks ih =>
    intro j v v' f hg hf
    simp only [getPathE] at hg
    cases hk : getKeyE j k with
    | error e => rw [hk] at hg; cases hg
    | ok w =>
      rw [hk] at hg
      obtain ⟨j', hj'⟩ := ih w v v' f hg hf
      cases j with
      | obj fs =>
        cases k with
        | str s =>
          obtain ⟨fs', heq, hl⟩ := getKeyE_ok_str hk
          injection heq with heq
          subst heq
          exact ⟨.obj (setJ fs s j'), by simp [updatePathE, hl, hj']⟩
        | idx n => simp [getKeyE] at hk
      | arr xs =>
        cases k with
        | str s => simp [getKeyE] at hk
        | idx n =>
          have hl : xs[n]? = some w := by
            simp only [getKeyE] at hk
            cases hx : xs[n]? with
            | none => rw [hx] at hk; cases hk
            | some u => rw [hx] at hk; cases hk; rfl
          exact ⟨.arr (xs.set n j'), by simp [updatePathE, hl, hj']⟩
      | null => simp [getKeyE] at hk
      | b v0 => simp [getKeyE] at hk
      | s v0 => simp [getKeyE] at hk
      | num v0 => simp [getKeyE] at hk

theorem updatePathE_through_obj : ∀ (p : List Key) (j j' : J) (k : String) (q : List Key)
    (f : J → Except PyErr J) (fs : List (String × J)),
    updatePathE j (p ++ .str k :: q) f = .ok j' →
    getPathE j p = .ok (.obj fs) →
    ∃ v v', lookupJ fs k = some v ∧ updatePathE v q f = .ok v' ∧
      getPathE j' p = .ok (.obj (setJ fs k v')) := by
  intro p
  induction p with
  | nil =>
    intro j j' k q f fs h hg
    simp only [getPathE] at hg
    injection hg with hg
    subst hg
    simp only [List.nil_append] at h
    cases hl : lookupJ fs k with
    | none => simp [updatePathE, hl] at h
    | some v0 =>
      simp only [updatePathE, hl] at h
      cases hu : updatePathE v0 q f with
      | error e =>
        simp only [hu] at h
        exact Except.noConfusion h
      | ok w' =>
        simp only [hu] at h
        injection h with h
        subst h
        exact ⟨v0, w', rfl, hu, rfl⟩
  | cons a p ih =>
    intro j j' k q f fs h hg
    simp only [getPathE] at hg
    cases hk : getKeyE j a with
    | error e => rw [hk] at hg; exact Except.noConfusion hg
    | ok v0 =>
      rw [hk] at hg
      cases j with
      | obj fs0 =>
        cases a with
        | str s =>
          obtain ⟨fs1, heq, hl0⟩ := getKeyE_ok_str hk
          injection heq with heq
          subst heq
          simp only [List.cons_append, updatePathE, hl0] at h
          split at h
          next e he => exact Except.noConfusion h
          next w' hw =>
            injection h with h
            subst h
            obtain ⟨v, v', hl, hu2, hg'⟩ := ih v0 w' k q f fs hw hg
            refine ⟨v, v', hl, hu2, ?_⟩
            simp [getPathE, getKeyE, lookupJ_setJ_self, hg']
        | idx n => simp [getKeyE] at hk
      | arr xs =>
        cases a with
        | str s => simp [getKeyE] at hk
        | idx n =>
          have hl0 : xs[n]? = some v0 := by
            simp only [getKeyE] at hk
            cases hx : xs[n]? with
            | none => rw [hx] at hk; exact Except.noConfusion hk
            | some u =>
              simp only [hx] at hk
              injection hk with hk
              exact congrArg some hk
          have hn : n < xs.length := by
            by_contra hge
            rw [List.getElem?_eq_none (Nat.le_of_not_lt hge)] at hl0
            cases hl0
          simp only [List.cons_append, updatePathE, hl0] at h
          split at h
          next e he => exact Except.noConfusion h
          next w' hw =>
            injection h with h
            subst h
            obtain ⟨v, v', hl, hu2, hg'⟩ := ih v0 w' k q f fs hw hg
            refine ⟨v, v', hl, hu2, ?_⟩
            simp [getPathE, getKeyE, List.getElem?_set_eq_of_lt _ hn, hg']
      | null => simp [getKeyE] at hk
      | b v1 => simp [getKeyE] at hk
      | s v1 => simp [getKeyE] at hk
      | num v1 => simp [getKeyE] at hk

theorem updatePathE_frame : ∀ (r : List Key) (j j' : J) (f : J → Except PyErr J) (q : List Key),
    updatePathE j r f = .ok j' → ¬ KPfx r q → ¬ KPfx q r →
    getPathE j' q = getPathE j q := by
  intro r
  induction r with
  | nil => intro j j' f q h hrq hqr; exact absurd trivial hrq
  | cons a r ih =>
    intro j j' f q h hrq hqr
    cases q with
    | nil => exact absurd trivial hqr
    | cons b q' =>
      cases j with
      | obj fs =>
        cases a with
        | str s =>
          cases hl : lookupJ fs s with
          | none => simp [updatePathE, hl] at h
          | some v0 =>
            simp only [updatePathE, hl] at h
            split at h
            next e he => exact Except.noConfusion h
            next w' hw =>
              injection h with h
              subst h
              by_cases hab : Key.str s = b
              · subst hab
                have hrq' : ¬ KPfx r q' := fun hh => hrq ⟨rfl, hh⟩
                have hqr' : ¬ KPfx q' r := fun hh => hqr ⟨rfl, hh⟩
                simp only [getPathE, getKeyE, lookupJ_setJ_self, hl]
                exact ih v0 w' f q' hw hrq' hqr'
              · cases b with
                | str t =>
                  have hts : t ≠ s := fun hh => hab (by rw [hh])
                  simp only [getPathE, getKeyE, lookupJ_setJ_ne fs s t w' hts]
                | idx m => simp only [getPathE, getKeyE]
        | idx n => simp [updatePathE] at h
      | arr xs =>
        cases a with
        | str s => simp [updatePathE] at h
        | idx n =>
          cases hl : xs[n]? with
          | none => simp [updatePathE, hl] at h
          | some v0 =>
            simp only [updatePathE, hl] at h
            split at h
            next e he => exact Except.noConfusion h
            next w' hw =>
              injection h with h
              subst h
              have hn : n < xs.length := by
                by_contra hge
                rw [List.getElem?_eq_none (Nat.le_of_not_lt hge)] at hl
                cases hl
              by_cases hab : Key.idx n = b
              · subst hab
                have hrq' : ¬ KPfx r q' := fun hh => hrq ⟨rfl, hh⟩
                have hqr' : ¬ KPfx q' r := fun hh => hqr ⟨rfl, hh⟩
                simp only [getPathE, getKeyE, List.getElem?_set_eq_of_lt _ hn, hl]
                exact ih v0 w' f q' hw hrq' hqr'
              · cases b with
                | str t => simp only [getPathE, getKeyE]
                | idx m =>
                  have hnm : n ≠ m := fun hh => hab (by rw [hh])
                  simp only [getPathE, getKeyE, List.getElem?_set_ne hnm]
      | null => simp [updatePathE] at h
      | b v => simp [updatePathE] at h
      | s v => simp [updatePathE] at h
      | num v => simp [updatePathE] at h

theorem attemptsFrom_ok (st : Nat → Nat) (h : ∀ k, st k ∉ retryCodes) :
    ∀ n k, attemptsFrom st n k = k := by
  intro n
  cases n with
  | zero => intro k; rfl
  | succ m => intro k; simp [attemptsFrom, h k]

/-- With a server that always answers 200 and a body `{data: S kwargs}`,
one layer of `graphql` reduces to the cursor loop over `S kwargs` (or to
`S kwargs` itself when `cursors` is absent), with one request counted. -/
theorem graphql_okServer_step (S : VarMap → J) (q tokS : String) (mr fl : Nat)
    (cursors : Option CTree) (prevPath : List Key) (kwargs : VarMap)
    (ht : tokenOk (some tokS) = true) :
    graphql (okServer S) q (some tokS) mr (fl + 1) cursors prevPath kwargs =
      match cursors with
      | none => .ok (S kwargs, 1)
      | some cs =>
        goCursors (graphql (okServer S) q (some tokS) mr fl) cs prevPath kwargs (S kwargs) 1 := by
  have hst : ∀ k, (okServer S kwargs k).status ∉ retryCodes := by
    intro k
    simp [okServer, retryCodes]
  simp only [graphql, ht, if_true, attemptsFrom_ok _ hst]
  cases cursors <;> simp [okServer, lookupJ]

theorem getPathE_key_after_pop (j1 : J) (p : List Key) (fs0 : List (String × J))
    (k : String) (ns : J) (hk : k ≠ "pageInfo")
    (hj1get : getPathE j1 p = .ok (.obj (removeJ fs0 "pageInfo")))
    (hn0 : lookupJ fs0 k = some ns) :
    getPathE j1 (p ++ [.str k]) = .ok ns := by
  rw [getPathE_append, hj1get]
  simp [getPathE, getKeyE, lookupJ_removeJ_ne fs0 "pageInfo" k hk, hn0]

theorem graphql_bare_pages (S : VarMap → J) (q tokS : String) (mr : Nat) (c : String)
    (cn : CNode) (hnx : cn.nextOf = none) (ht : tokenOk (some tokS) = true) :
    ∀ (pages : List Page) (kwargs : VarMap) (fuel : Nat),
      pages ≠ [] → ChainOk pages → ServesPages S c cn.pathOf kwargs pages →
      pages.length ≤ fuel →
      ∃ d, graphql (okServer S) q (some tokS) mr fuel (some [(c, cn)]) [] kwargs =
          .ok (d, pages.length) ∧
        getPathE d (strPath cn.pathOf ++ [.str "nodes"]) =
          .ok (.arr (pages.map Page.nodes).flatten) := by
  intro pages
  induction pages with
  | nil => intro kwargs fuel hne; exact absurd rfl hne
  | cons pg rest ih =>
    intro kwargs fuel _ hchain hserv hfl
    obtain ⟨⟨fs0, hg0, hpi0, hn0⟩, hserv'⟩ := hserv
    obtain ⟨hnp, hchain'⟩ := hchain
    cases fuel with
    | zero => simp at hfl
    | succ fl =>
      rw [graphql_okServer_step S q tokS mr fl _ [] kwargs ht]
      have hpop : popPI (.obj fs0) = .ok (.obj (removeJ fs0 "pageInfo")) := rfl
      obtain ⟨j1, hj1⟩ :=
        updatePathE_exists (strPath cn.pathOf) (S kwargs) (.obj fs0)
          (.obj (removeJ fs0 "pageInfo")) popPI hg0 hpop
      obtain ⟨v, v', hv, hv', hj1get⟩ := updatePathE_ok _ _ _ _ hj1
      rw [hg0] at hv
      injection hv with hv
      subst hv
      rw [hpop] at hv'
      injection hv' with hv'
      subst hv'
      have hnodes1 : getPathE j1 (strPath cn.pathOf ++ [.str "nodes"]) =
          .ok (.arr pg.nodes) :=
        getPathE_key_after_pop j1 _ fs0 "nodes" (.arr pg.nodes) (by decide) hj1get hn0
      have hpiK : getKeyE (.obj fs0) (.str "pageInfo") =
          .ok (mkPI pg.endCursor pg.hasNextPage) := by simp [getKeyE, hpi0]
      have hhnpK : getKeyE (mkPI pg.endCursor pg.hasNextPage) (.str "hasNextPage") =
          .ok (.b pg.hasNextPage) := by simp [mkPI, getKeyE, lookupJ]
      have hecK : getKeyE (mkPI pg.endCursor pg.hasNextPage) (.str "endCursor") =
          .ok pg.endCursor := by simp [mkPI, getKeyE, lookupJ]
      cases rest with
      | nil =>
        simp only [List.isEmpty_nil, Bool.not_true] at hnp
        rw [hnp] at hpiK hhnpK
        refine ⟨j1, ?_, ?_⟩
        · simp [goCursors, hg0, hpiK, hj1, hhnpK, truthy, hnx]
        · simpa using hnodes1
      | cons r0 rest' =>
        simp only [List.isEmpty_cons, Bool.not_false] at hnp
        rw [hnp] at hpiK hhnpK hecK
        obtain ⟨d2, hd2, hd2n⟩ := ih (setJ kwargs c pg.endCursor) fl
          (by simp) hchain' hserv' (by simp only [List.length_cons] at hfl ⊢; omega)
        rw [getPathE_append] at hd2n
        cases hN : getPathE d2 (strPath cn.pathOf) with
        | error e => rw [hN] at hd2n; exact Except.noConfusion hd2n
        | ok vN =>
          rw [hN] at hd2n
          simp only [getPathE] at hd2n
          cases hKN : getKeyE vN (.str "nodes") with
          | error e => rw [hKN] at hd2n; exact Except.noConfusion hd2n
          | ok wN =>
            rw [hKN] at hd2n
            simp only [getPathE] at hd2n
            injection hd2n with hd2n
            subst hd2n
            obtain ⟨j2, hj2⟩ :=
              updatePathE_exists (strPath cn.pathOf ++ [.str "nodes"]) j1 (.arr pg.nodes) _
                (extendF (.arr ((r0 :: rest').map Page.nodes).flatten)) hnodes1 rfl
            obtain ⟨u, u', hu, hu', hj2get⟩ := updatePathE_ok _ _ _ _ hj2
            rw [hnodes1] at hu
            injection hu with hu
            subst hu
            have hu'2 : u' = .arr (pg.nodes ++ ((r0 :: rest').map Page.nodes).flatten) := by
              simp only [extendF] at hu'
              injection hu' with hu'
              rw [← hu']
            subst hu'2
            refine ⟨j2, ?_, ?_⟩
            · simp only [List.map_cons, List.flatten_cons] at hj2
              have hcnt : 1 + (rest'.length + 1) = rest'.length + 1 + 1 := by omega
              simp [goCursors, hg0, hpiK, hj1, hhnpK, truthy, hecK, hd2, hN, hKN, hj2, hcnt]
            · rw [hj2get]
              simp

theorem weld_preserves_key (nextD : J) :
    ∀ (nt : CTree) (curPath t0 : List Key) (data data' : J) (fs : List (String × J)),
      weld nt (curPath ++ .str "nodes" :: t0) nextD data = .ok data' →
      getPathE data curPath = .ok (.obj fs) → lookupJ fs "pageInfo" = none →
      ∃ fs', getPathE data' curPath = .ok (.obj fs') ∧ lookupJ fs' "pageInfo" = none := by
  intro nt
  induction nt with
  | nil =>
    intro curPath t0 data data' fs h hg hl
    simp only [weld] at h
    injection h with h
    subst h
    exact ⟨fs, hg, hl⟩
  | cons hd rest ih =>
    intro curPath t0 data data' fs h hg hl
    obtain ⟨cname, nc⟩ := hd
    simp only [weld] at h
    cases hdes : descend2 data nextD ((curPath ++ .str "nodes" :: t0) ++ strPath nc.pathOf) with
    | error e =>
      rw [hdes] at h
      exact Except.noConfusion h
    | ok pr =>
      obtain ⟨objN, nextN⟩ := pr
      rw [hdes] at h
      cases hK : getKeyE nextN (.str "nodes") with
      | error e =>
        simp only [hK] at h
        exact Except.noConfusion h
      | ok newNodes =>
        simp only [hK] at h
        cases hU : updatePathE data ((curPath ++ .str "nodes" :: t0) ++ strPath nc.pathOf)
            (setNodesF newNodes) with
        | error e =>
          simp only [hU] at h
          exact Except.noConfusion h
        | ok data2 =>
          simp only [hU] at h
          have hassoc : (curPath ++ .str "nodes" :: t0) ++ strPath nc.pathOf =
              curPath ++ .str "nodes" :: (t0 ++ strPath nc.pathOf) := by
            simp
          rw [hassoc] at hU
          obtain ⟨v, v', hv, hv', hg2⟩ :=
            updatePathE_through_obj curPath data data2 "nodes" (t0 ++ strPath nc.pathOf)
              (setNodesF newNodes) fs hU hg
          have hl2 : lookupJ (setJ fs "nodes" v') "pageInfo" = none := by
            rw [lookupJ_setJ_ne fs "nodes" "pageInfo" v' (by decide)]
            exact hl
          exact ih curPath t0 data2 data' (setJ fs "nodes" v') h hg2 hl2

theorem goElems_preserves_key (rec : Option CTree → List Key → VarMap → Except PyErr (J × Nat))
    (nt : CTree) (curPath : List Key) (kwargs : VarMap) :
    ∀ (rem i : Nat) (data : J) (cnt : Nat) (data' : J) (cnt' : Nat) (fs : List (String × J)),
      goElems rec nt [] curPath kwargs rem i data cnt = .ok (data', cnt') →
      getPathE data curPath = .ok (.obj fs) → lookupJ fs "pageInfo" = none →
      ∃ fs', getPathE data' curPath = .ok (.obj fs') ∧ lookupJ fs' "pageInfo" = none := by
  intro rem
  induction rem with
  | zero =>
    intro i data cnt data' cnt' fs h hg hl
    simp only [goElems] at h
    injection h with h
    injection h with h1 h2
    subst h1
    exact ⟨fs, hg, hl⟩
  | succ rem ih =>
    intro i data cnt data' cnt' fs h hg hl
    simp only [goElems, List.isEmpty_nil, if_true] at h
    cases he : getPathE data (curPath ++ [.str "nodes", .idx i]) with
    | error e =>
      simp only [he] at h
      exact Except.noConfusion h
    | ok nodeData =>
      simp only [he] at h
      cases h2 : checkRequired nt nodeData with
      | error e =>
        simp only [h2] at h
        exact Except.noConfusion h
      | ok req =>
        simp only [h2] at h
        cases req with
        | false =>
          rw [if_neg (by simp)] at h
          exact ih (i + 1) data cnt data' cnt' fs h hg hl
        | true =>
          rw [if_pos rfl] at h
          cases h3 : rec (some nt) (curPath ++ [.str "nodes", .idx i]) kwargs with
          | error e =>
            simp only [h3] at h
            exact Except.noConfusion h
          | ok pr =>
            obtain ⟨nextD, c2⟩ := pr
            simp only [h3] at h
            cases h4 : weld nt (curPath ++ [.str "nodes", .idx i]) nextD data with
            | error e =>
              simp only [h4] at h
              exact Except.noConfusion h
            | ok data2 =>
              simp only [h4] at h
              have h4' : weld nt (curPath ++ .str "nodes" :: [.idx i]) nextD data =
                  .ok data2 := h4
              obtain ⟨fs2, hg2, hl2⟩ :=
                weld_preserves_key nextD nt curPath [.idx i] data data2 fs h4' hg hl
              exact ih (i + 1) data2 (cnt + c2) data' cnt' fs2 h hg2 hl2

theorem checkRequired_false (elem : J) :
    ∀ nt : CTree,
      (∀ cp ∈ nt, (cp.2 : CNode).nextOf = none ∧
        ∃ fs' pif', getPathE elem (strPath cp.2.pathOf) = .ok (.obj fs') ∧
          lookupJ fs' "pageInfo" = some pif' ∧
          getKeyE pif' (.str "hasNextPage") = .ok (.b false)) →
      checkRequired nt elem = .ok false := by
  intro nt
  induction nt with
  | nil => intro _; rfl
  | cons hd rest ih =>
    intro hall
    obtain ⟨hleaf, fs', pif', hg', hpi', hnp'⟩ := hall hd (List.mem_cons_self hd rest)
    have hrest := ih (fun cp hcp => hall cp (List.mem_cons_of_mem hd hcp))
    obtain ⟨cname, nc⟩ := hd
    have hpiK : getKeyE (.obj fs') (.str "pageInfo") = .ok pif' := by
      simp [getKeyE, hpi']
    simp [checkRequired, hg', hpiK, hnp', hrest, truthy, hleaf]

theorem goElems_skip (rec : Option CTree → List Key → VarMap → Except PyErr (J × Nat))
    (nt : CTree) (p : List Key) (kwargs : VarMap) (d : J) (len : Nat)
    (helem : ∀ k, k < len → ∃ elem, getPathE d (p ++ [.str "nodes", .idx k]) = .ok elem ∧
      checkRequired nt elem = .ok false) :
    ∀ rem i cnt, i + rem = len → goElems rec nt [] p kwargs rem i d cnt = .ok (d, cnt) := by
  intro rem
  induction rem with
  | zero => intro i cnt _; rfl
  | succ rem ih =>
    intro i cnt hil
    obtain ⟨elem, hge, hcr⟩ := helem i (by omega)
    simp only [goElems, List.isEmpty_nil, if_true, hge, hcr]
    rw [if_neg (by simp)]
    exact ih (i + 1) cnt (by omega)

theorem popPI_ok {v v' : J} (h : popPI v = .ok v') :
    ∃ fs, v = .obj fs ∧ v' = .obj (removeJ fs "pageInfo") := by
  cases v <;> simp [popPI] at h
  case obj fs => exact ⟨fs, rfl, h.symm⟩

theorem pop_frame {j j' : J} {p : List Key} (h : updatePathE j p popPI = .ok j')
    (qp : List Key) (h1 : ¬ KPfx qp p) (h2 : ¬ KPfx (p ++ [.str "pageInfo"]) qp) :
    getPathE j' qp = getPathE j qp := by
  by_cases hpq : KPfx p qp
  · rw [KPfx_iff_exists] at hpq
    obtain ⟨t, rfl⟩ := hpq
    cases t with
    | nil =>
      exact absurd (by simpa using KPfx_refl p) h1
    | cons k1 t' =>
      obtain ⟨v, v', hv, hv', hj'⟩ := updatePathE_ok _ _ _ _ h
      obtain ⟨fs, hfs, hv'2⟩ := popPI_ok hv'
      subst hfs
      subst hv'2
      rw [getPathE_append, getPathE_append, hj', hv]
      cases k1 with
      | str s =>
        have hs : s ≠ "pageInfo" := by
          intro hss
          subst hss
          refine h2 ?_
          have : p ++ .str "pageInfo" :: t' = (p ++ [.str "pageInfo"]) ++ t' := by simp
          rw [this]
          exact KPfx_append_right _ _
        simp [getPathE, getKeyE, lookupJ_removeJ_ne fs "pageInfo" s hs]
      | idx m => simp [getPathE, getKeyE]
  · exact updatePathE_frame p j j' popPI qp h hpq h1

theorem weld_frame (nextD : J) :
    ∀ (nt : CTree) (cpn : List Key) (data data' : J),
      weld nt cpn nextD data = .ok data' →
      ∀ qp, ¬ KPfx cpn qp → ¬ KPfx qp cpn →
      getPathE data' qp = getPathE data qp := by
  intro nt
  induction nt with
  | nil =>
    intro cpn data data' h qp _ _
    simp only [weld] at h
    injection h with h
    subst h
    rfl
  | cons hd rest ih =>
    intro cpn data data' h qp hc1 hc2
    obtain ⟨cname, nc⟩ := hd
    simp only [weld] at h
    cases hdes : descend2 data nextD (cpn ++ strPath nc.pathOf) with
    | error e =>
      rw [hdes] at h
      exact Except.noConfusion h
    | ok pr =>
      obtain ⟨objN, nextN⟩ := pr
      rw [hdes] at h
      cases hK : getKeyE nextN (.str "nodes") with
      | error e =>
        simp only [hK] at h
        exact Except.noConfusion h
      | ok newNodes =>
        simp only [hK] at h
        cases hU : updatePathE data (cpn ++ strPath nc.pathOf) (setNodesF newNodes) with
        | error e =>
          simp only [hU] at h
          exact Except.noConfusion h
        | ok data2 =>
          simp only [hU] at h
          have hr1 : ¬ KPfx (cpn ++ strPath nc.pathOf) qp := fun hh =>
            hc1 (KPfx_trans (KPfx_append_right cpn (strPath nc.pathOf)) hh)
          have hr2 : ¬ KPfx qp (cpn ++ strPath nc.pathOf) := by
            intro hh
            rcases KPfx_comparable hh (KPfx_append_right cpn (strPath nc.pathOf)) with
              hq | hq
            · exact hc2 hq
            · exact hc1 hq
          have hstep := updatePathE_frame _ _ _ _ qp hU hr1 hr2
          rw [ih cpn data2 data' h qp hc1 hc2, hstep]

theorem goElems_frame (rec : Option CTree → List Key → VarMap → Except PyErr (J × Nat))
    (nt : CTree) (curPath : List Key) (kwargs : VarMap) :
    ∀ (rem i : Nat) (data : J) (cnt : Nat) (data' : J) (cnt' : Nat),
      goElems rec nt [] curPath kwargs rem i data cnt = .ok (data', cnt') →
      ∀ qp, ¬ KPfx (curPath ++ [.str "nodes"]) qp → ¬ KPfx qp curPath →
      getPathE data' qp = getPathE data qp := by
  intro rem
  induction rem with
  | zero =>
    intro i data cnt data' cnt' h qp _ _
    simp only [goElems] at h
    injection h with h
    injection h with h1 h2
    subst h1
    rfl
  | succ rem ih =>
    intro i data cnt data' cnt' h qp hq1 hq2
    simp only [goElems, List.isEmpty_nil, if_true] at h
    cases he : getPathE data (curPath ++ [.str "nodes", .idx i]) with
    | error e =>
      simp only [he] at h
      exact Except.noConfusion h
    | ok nodeData =>
      simp only [he] at h
      cases h2 : checkRequired nt nodeData with
      | error e =>
        simp only [h2] at h
        exact Except.noConfusion h
      | ok req =>
        simp only [h2] at h
        cases req with
        | false =>
          rw [if_neg (by simp)] at h
          exact ih (i + 1) data cnt data' cnt' h qp hq1 hq2
        | true =>
          rw [if_pos rfl] at h
          cases h3 : rec (some nt) (curPath ++ [.str "nodes", .idx i]) kwargs with
          | error e =>
            simp only [h3] at h
            exact Except.noConfusion h
          | ok pr =>
            obtain ⟨nextD, c2⟩ := pr
            simp only [h3] at h
            cases h4 : weld nt (curPath ++ [.str "nodes", .idx i]) nextD data with
            | error e =>
              simp only [h4] at h
              exact Except.noConfusion h
            | ok data2 =>
              simp only [h4] at h
              have happ : curPath ++ [Key.str "nodes", Key.idx i] =
                  (curPath ++ [Key.str "nodes"]) ++ [Key.idx i] := by simp
              have hc1 : ¬ KPfx (curPath ++ [.str "nodes", .idx i]) qp := by
                intro hh
                rw [happ] at hh
                exact hq1 (KPfx_trans (KPfx_append_right _ _) hh)
              have hc2 : ¬ KPfx qp (curPath ++ [.str "nodes", .idx i]) := by
                intro hh
                rw [happ] at hh
                rcases KPfx_comparable hh (KPfx_append_right (curPath ++ [Key.str "nodes"])
                  [Key.idx i]) with hq | hq
                · rcases KPfx_concat hq with hq' | hq'
                  · exact hq2 hq'
                  · subst hq'
                    exact hq1 (KPfx_refl _)
                · exact hq1 hq
              have hstep := weld_frame nextD nt _ data data2 h4 qp hc1 hc2
              rw [ih (i + 1) data2 (cnt + c2) data' cnt' h qp hq1 hq2, hstep]

theorem goCursors_frame (rec : Option CTree → List Key → VarMap → Except PyErr (J × Nat)) :
    ∀ (ts : CTree) (kwargs : VarMap) (data : J) (cnt : Nat) (d : J) (n : Nat),
      goCursors rec ts [] kwargs data cnt = .ok (d, n) →
      ∀ qp, (∀ cp ∈ ts, ¬ KPfx qp (strPath (cp.2 : CNode).pathOf) ∧
          ¬ KPfx (strPath cp.2.pathOf ++ [.str "pageInfo"]) qp ∧
          ¬ KPfx (strPath cp.2.pathOf ++ [.str "nodes"]) qp) →
      getPathE d qp = getPathE data qp := by
  intro ts
  induction ts with
  | nil =>
    intro kwargs data cnt d n h qp _
    simp only [goCursors] at h
    injection h with h
    injection h with h1 h2
    subst h1
    rfl
  | cons hd rest ih =>
    intro kwargs data cnt d n h qp hout
    obtain ⟨cname, cn⟩ := hd
    obtain ⟨ho1, ho2, ho3⟩ := hout (cname, cn) (List.mem_cons_self _ _)
    have hrest := fun cp hcp => hout cp (List.mem_cons_of_mem _ hcp)
    simp only [goCursors, List.isEmpty_nil, if_true] at h
    cases hg : getPathE data (strPath cn.pathOf) with
    | error e =>
      simp only [hg] at h
      exact Except.noConfusion h
    | ok obj =>
      simp only [hg] at h
      cases hpi : getKeyE obj (.str "pageInfo") with
      | error e =>
        simp only [hpi] at h
        exact Except.noConfusion h
      | ok pi =>
        simp only [hpi] at h
        cases hup : updatePathE data (strPath cn.pathOf) popPI with
        | error e =>
          simp only [hup] at h
          exact Except.noConfusion h
        | ok j1 =>
          simp only [hup] at h
          have hj1f : getPathE j1 qp = getPathE data qp := pop_frame hup qp ho1 ho2
          cases hnpread : getKeyE pi (.str "hasNextPage") with
          | error e =>
            simp only [hnpread] at h
            exact Except.noConfusion h
          | ok hnp =>
            simp only [hnpread] at h
            by_cases htr : truthy hnp = true
            · rw [if_pos htr] at h
              cases hec : getKeyE pi (.str "endCursor") with
              | error e =>
                simp only [hec] at h
                exact Except.noConfusion h
              | ok endCur =>
                simp only [hec] at h
                cases hrec : rec (some [(cname, cn)]) [] (setJ kwargs cname endCur) with
                | error e =>
                  simp only [hrec] at h
                  exact Except.noConfusion h
                | ok pr =>
                  obtain ⟨nextD, c2⟩ := pr
                  simp only [hrec] at h
                  cases hN : getPathE nextD (strPath cn.pathOf) with
                  | error e =>
                    simp only [hN] at h
                    exact Except.noConfusion h
                  | ok nextObj =>
                    simp only [hN] at h
                    cases hK : getKeyE nextObj (.str "nodes") with
                    | error e =>
                      simp only [hK] at h
                      exact Except.noConfusion h
                    | ok nextNodes =>
                      simp only [hK] at h
                      cases hX : updatePathE j1 (strPath cn.pathOf ++ [.str "nodes"])
                          (extendF nextNodes) with
                      | error e =>
                        simp only [hX] at h
                        exact Except.noConfusion h
                      | ok j2 =>
                        simp only [hX] at h
                        have hx2 : ¬ KPfx qp (strPath cn.pathOf ++ [.str "nodes"]) := by
                          intro hh
                          rcases KPfx_concat hh with hq | hq
                          · exact ho1 hq
                          · subst hq
                            exact ho3 (KPfx_refl _)
                        have hstep := updatePathE_frame _ _ _ _ qp hX ho3 hx2
                        rw [ih (setJ kwargs cname endCur) j2 (cnt + c2) d n h qp hrest,
                          hstep, hj1f]
            · rw [if_neg htr] at h
              cases hnx : cn.nextOf with
              | none =>
                simp only [hnx] at h
                rw [ih kwargs j1 cnt d n h qp hrest, hj1f]
              | some nt =>
                simp only [hnx] at h
                cases hc2 : getPathE j1 (strPath cn.pathOf) with
                | error e =>
                  simp only [hc2] at h
                  exact Except.noConfusion h
                | ok conn =>
                  simp only [hc2] at h
                  cases hK2 : getKeyE conn (.str "nodes") with
                  | error e =>
                    simp only [hK2] at h
                    exact Except.noConfusion h
                  | ok nodesJ =>
                    simp only [hK2] at h
                    cases nodesJ with
                    | arr elems =>
                      cases hge : goElems rec nt [] (strPath cn.pathOf) kwargs
                          elems.length 0 j1 cnt with
                      | error e =>
                        simp only [hge] at h
                        exact Except.noConfusion h
                      | ok pr2 =>
                        obtain ⟨d2, cnt2⟩ := pr2
                        simp only [hge] at h
                        have hgef := goElems_frame rec nt (strPath cn.pathOf) kwargs
                          elems.length 0 j1 cnt d2 cnt2 hge qp ho3 ho1
                        rw [ih kwargs d2 cnt2 d n h qp hrest, hgef, hj1f]
                    | null => simp at h
                    | b v0 => simp at h
                    | s v0 => simp at h
                    | num v0 => simp at h
                    | obj fs1 => simp at h

/-- C10: `graphql` mutates the first response only at connections reachable
via cursor-tree paths.  Every path that is not an ancestor of a top-level
cursor path and does not pass through that connection's `pageInfo` or
`nodes` keys reads identically in the returned tree and in the decoded
first response; in particular every other key of a visited connection and
every subtree off the cursor paths is returned exactly as decoded. -/
theorem C10_mutates_only_cursor_paths (S : VarMap → J) (q tokS : String)
    (mr fuel : Nat) (ts : CTree) (kwargs : VarMap) (d : J) (n : Nat)
    (ht : tokenOk (some tokS) = true)
    (hrun : graphql (okServer S) q (some tokS) mr fuel (some ts) [] kwargs = .ok (d, n))
    (qp : List Key)
    (hout : ∀ cp ∈ ts, ¬ KPfx qp (strPath (cp.2 : CNode).pathOf) ∧
      ¬ KPfx (strPath cp.2.pathOf ++ [.str "pageInfo"]) qp ∧
      ¬ KPfx (strPath cp.2.pathOf ++ [.str "nodes"]) qp) :
    getPathE d qp = getPathE (S kwargs) qp := by
  cases fuel with
  | zero => simp [graphql] at hrun
  | succ fl =>
    rw [graphql_okServer_step S q tokS mr fl _ [] kwargs ht] at hrun
    exact goCursors_frame (graphql (okServer S) q (some tokS) mr fl) ts kwargs
      (S kwargs) 1 d n hrun qp hout

theorem C10_mutates_only_cursor_paths_witness :
    getPathE (.obj [("a", .obj [("nodes", .arr [.num 1])]), ("z", .num 42)]) [.str "z"] =
      getPathE (srvExtra []) [.str "z"] :=
  C10_mutates_only_cursor_paths srvExtra "q" "t" 8 3 [("c", .bare ["a"])] []
    (.obj [("a", .obj [("nodes", .arr [.num 1])]), ("z", .num 42)]) 1
    rfl rfl [.str "z"] (by decide)

theorem C9_shape_errors_are_keyerrors_witness :
    graphql (okServer srvNoSeg) "q" (some "t") 8 3 (some [("c", .bare ["missing"])]) [] [] =
      .error (.keyError "missing") ∧
    PyErr.keyError "missing" ≠ .tokenError ∧
    PyErr.keyError "missing" ≠ .httpError 500 ∧
    PyErr.keyError "missing" ≠ .graphQLError .null :=
  ⟨C9_shape_errors_are_keyerrors.1,
   C9_shape_errors_are_keyerrors.2.2.1 "missing",
   C9_shape_errors_are_keyerrors.2.2.2.1 "missing" 500,
   C9_shape_errors_are_keyerrors.2.2.2.2 "missing" .null⟩

theorem div_ext_left {p pj : List Key} (h1 : ¬ KPfx p pj) (s : List Key) :
    ¬ KPfx (p ++ s) pj :=
  fun hh => h1 (KPfx_trans (KPfx_append_right p s) hh)

theorem div_ext_right {p pj : List Key} (h1 : ¬ KPfx p pj) (h2 : ¬ KPfx pj p)
    (x : Key) (s : List Key) : ¬ KPfx (pj ++ [x]) (p ++ s) := by
  intro hh
  have hpj : KPfx pj (p ++ s) := KPfx_trans (KPfx_append_right pj [x]) hh
  rcases KPfx_comparable hpj (KPfx_append_right p s) with hq | hq
  · rcases KPfx_iff_exists pj p |>.mp hq with ⟨t, rfl⟩
    exact h2 hq
  · exact h1 hq

theorem pop_frame_subtree {j j' : J} {pj : List Key} (h : updatePathE j pj popPI = .ok j')
    {p : List Key} (h1 : ¬ KPfx p pj) (h2 : ¬ KPfx pj p) (s : List Key) :
    getPathE j' (p ++ s) = getPathE j (p ++ s) :=
  pop_frame h (p ++ s) (div_ext_left h1 s) (div_ext_right h1 h2 (.str "pageInfo") s)

theorem div_concat_right {p pj : List Key} (h1 : ¬ KPfx p pj) (h2 : ¬ KPfx pj p)
    (x : Key) : ¬ KPfx pj (p ++ [x]) := by
  intro hh
  rcases KPfx_concat hh with hq | hq
  · exact h2 hq
  · exact h1 (hq ▸ KPfx_append_right p [x])

theorem goCursors_pageinfo_removed (rec : Option CTree → List Key → VarMap →
    Except PyErr (J × Nat)) :
    ∀ (ts : CTree) (kwargs : VarMap) (data : J) (cnt : Nat) (d : J) (n : Nat),
      goCursors rec ts [] kwargs data cnt = .ok (d, n) →
      List.Pairwise (fun a b : String × CNode =>
        ¬ KPfx (strPath a.2.pathOf) (strPath b.2.pathOf) ∧
        ¬ KPfx (strPath b.2.pathOf) (strPath a.2.pathOf)) ts →
      (∀ cp ∈ ts, ∀ fs, getPathE data (strPath (cp.2 : CNode).pathOf) = .ok (.obj fs) →
        (fs.map Prod.fst).Nodup) →
      ∀ cp ∈ ts, getPathE d (strPath (cp.2 : CNode).pathOf ++ [.str "pageInfo"]) =
        .error (.keyError "pageInfo") := by
  intro ts
  induction ts with
  | nil =>
    intro kwargs data cnt d n h _ _ cp hcp
    exact absurd hcp (List.not_mem_nil cp)
  | cons hd rest ih =>
    intro kwargs data cnt d n h hdiv hnodups
    obtain ⟨cname, cn⟩ := hd
    have hdivhead := (List.pairwise_cons.mp hdiv).1
    have hdivrest := (List.pairwise_cons.mp hdiv).2
    have hmain : ∀ (data₁ : J) (kwargs₁ : VarMap) (cnt₁ : Nat),
        goCursors rec rest [] kwargs₁ data₁ cnt₁ = .ok (d, n) →
        (∃ fs', getPathE data₁ (strPath cn.pathOf) = .ok (.obj fs') ∧
          lookupJ fs' "pageInfo" = none) →
        (∀ cp ∈ rest, getPathE data₁ (strPath (cp.2 : CNode).pathOf) =
          getPathE data (strPath (cp.2 : CNode).pathOf)) →
        ∀ cp ∈ (cname, cn) :: rest,
          getPathE d (strPath (cp.2 : CNode).pathOf ++ [.str "pageInfo"]) =
            .error (.keyError "pageInfo") := by
      intro data₁ kwargs₁ cnt₁ hrest hfact hread cp hcp
      rcases List.mem_cons.mp hcp with rfl | hcp'
      · have hframe := goCursors_frame rec rest kwargs₁ data₁ cnt₁ d n hrest
          (strPath cn.pathOf ++ [.str "pageInfo"]) (by
            intro cpj hcpj
            obtain ⟨h1j, h2j⟩ := hdivhead cpj hcpj
            exact ⟨div_ext_left h1j _, div_ext_right h1j h2j _ _,
              div_ext_right h1j h2j _ _⟩)
        rw [hframe]
        obtain ⟨fs', hg', hl'⟩ := hfact
        rw [getPathE_append, hg']
        simp [getPathE, getKeyE, hl']
      · refine ih kwargs₁ data₁ cnt₁ d n hrest hdivrest ?_ cp hcp'
        intro cpj hcpj fs hfs
        refine hnodups cpj (List.mem_cons_of_mem _ hcpj) fs ?_
        rw [← hread cpj hcpj]
        exact hfs
    simp only [goCursors, List.isEmpty_nil, if_true] at h
    cases hg : getPathE data (strPath cn.pathOf) with
    | error e =>
      simp only [hg] at h
      exact Except.noConfusion h
    | ok obj =>
      simp only [hg] at h
      cases hpi : getKeyE obj (.str "pageInfo") with
      | error e =>
        simp only [hpi] at h
        exact Except.noConfusion h
      | ok pi =>
        simp only [hpi] at h
        obtain ⟨fs0, hobj, hlpi⟩ := getKeyE_ok_str hpi
        subst hobj
        have hnodup0 : (fs0.map Prod.fst).Nodup :=
          hnodups (cname, cn) (List.mem_cons_self _ _) fs0 hg
        cases hup : updatePathE data (strPath cn.pathOf) popPI with
        | error e =>
          simp only [hup] at h
          exact Except.noConfusion h
        | ok j1 =>
          simp only [hup] at h
          obtain ⟨v, v', hv, hv', hj1get⟩ := updatePathE_ok _ _ _ _ hup
          rw [hg] at hv
          injection hv with hv
          subst hv
          have hv'' : v' = .obj (removeJ fs0 "pageInfo") := by
            simp only [popPI] at hv'
            injection hv' with hv'
            exact hv'.symm
          subst hv''
          have hlnone : lookupJ (removeJ fs0 "pageInfo") "pageInfo" = none :=
            lookupJ_removeJ_self fs0 "pageInfo" hnodup0
          have hread1 : ∀ cp ∈ rest, getPathE j1 (strPath (cp.2 : CNode).pathOf) =
              getPathE data (strPath (cp.2 : CNode).pathOf) := by
            intro cpj hcpj
            obtain ⟨h1j, h2j⟩ := hdivhead cpj hcpj
            have := pop_frame_subtree hup h2j h1j []
            simpa using this
          cases hnpread : getKeyE pi (.str "hasNextPage") with
          | error e =>
            simp only [hnpread] at h
            exact Except.noConfusion h
          | ok hnp =>
            simp only [hnpread] at h
            by_cases htr : truthy hnp = true
            · rw [if_pos htr] at h
              cases hec : getKeyE pi (.str "endCursor") with
              | error e =>
                simp only [hec] at h
                exact Except.noConfusion h
              | ok endCur =>
                simp only [hec] at h
                cases hrec : rec (some [(cname, cn)]) [] (setJ kwargs cname endCur) with
                | error e =>
                  simp only [hrec] at h
                  exact Except.noConfusion h
                | ok pr =>
                  obtain ⟨nextD, c2⟩ := pr
                  simp only [hrec] at h
                  cases hN : getPathE nextD (strPath cn.pathOf) with
                  | error e =>
                    simp only [hN] at h
                    exact Except.noConfusion h
                  | ok nextObj =>
                    simp only [hN] at h
                    cases hK : getKeyE nextObj (.str "nodes") with
                    | error e =>
                      simp only [hK] at h
                      exact Except.noConfusion h
                    | ok nextNodes =>
                      simp only [hK] at h
                      cases hX : updatePathE j1 (strPath cn.pathOf ++ [.str "nodes"])
                          (extendF nextNodes) with
                      | error e =>
                        simp only [hX] at h
                        exact Except.noConfusion h
                      | ok j2 =>
                        simp only [hX] at h
                        refine hmain j2 (setJ kwargs cname endCur) (cnt + c2) h ?_ ?_
                        · have hX' : updatePathE j1
                              (strPath cn.pathOf ++ .str "nodes" :: [])
                              (extendF nextNodes) = .ok j2 := hX
                          obtain ⟨w, w', hw, hw', hg2⟩ :=
                            updatePathE_through_obj (strPath cn.pathOf) j1 j2 "nodes" []
                              (extendF nextNodes) (removeJ fs0 "pageInfo") hX' hj1get
                          refine ⟨_, hg2, ?_⟩
                          rw [lookupJ_setJ_ne _ "nodes" "pageInfo" _ (by decide)]
                          exact hlnone
                        · intro cpj hcpj
                          obtain ⟨h1j, h2j⟩ := hdivhead cpj hcpj
                          have hstep := updatePathE_frame _ _ _ _
                            (strPath (cpj.2 : CNode).pathOf) hX
                            (div_ext_left h1j [.str "nodes"])
                            (div_concat_right h1j h2j (.str "nodes"))
                          rw [hstep]
                          exact hread1 cpj hcpj
            · rw [if_neg htr] at h
              cases hnx : cn.nextOf with
              | none =>
                simp only [hnx] at h
                exact hmain j1 kwargs cnt h ⟨_, hj1get, hlnone⟩ hread1
              | some nt =>
                simp only [hnx] at h
                cases hc2 : getPathE j1 (strPath cn.pathOf) with
                | error e =>
                  simp only [hc2] at h
                  exact Except.noConfusion h
                | ok conn =>
                  simp only [hc2] at h
                  cases hK2 : getKeyE conn (.str "nodes") with
                  | error e =>
                    simp only [hK2] at h
                    exact Except.noConfusion h
                  | ok nodesJ =>
                    simp only [hK2] at h
                    cases nodesJ with
                    | arr elems =>
                      cases hge : goElems rec nt [] (strPath cn.pathOf) kwargs
                          elems.length 0 j1 cnt with
                      | error e =>
                        simp only [hge] at h
                        exact Except.noConfusion h
                      | ok pr2 =>
                        obtain ⟨d2, cnt2⟩ := pr2
                        simp only [hge] at h
                        refine hmain d2 kwargs cnt2 h ?_ ?_
                        · obtain ⟨fs', hg', hl'⟩ :=
                            goElems_preserves_key rec nt (strPath cn.pathOf) kwargs
                              elems.length 0 j1 cnt d2 cnt2 (removeJ fs0 "pageInfo")
                              hge hj1get hlnone
                          exact ⟨fs', hg', hl'⟩
                        · intro cpj hcpj
                          obtain ⟨h1j, h2j⟩ := hdivhead cpj hcpj
                          have hstep := goElems_frame rec nt (strPath cn.pathOf) kwargs
                            elems.length 0 j1 cnt d2 cnt2 hge
                            (strPath (cpj.2 : CNode).pathOf)
                            (div_ext_left h1j [.str "nodes"]) h2j
                          rw [hstep]
                          exact hread1 cpj hcpj
                    | null => simp at h
                    | b v0 => simp at h
                    | s v0 => simp at h
                    | num v0 => simp at h
                    | obj fs1 => simp at h

/-- C2 (amended): for every cursor tree whose top-level cursor paths are
pairwise divergent (no path a prefix of another) and name well-formed
(duplicate-free) connection objects, a successful `graphql` call returns a
tree in which no connection named by a top-level cursor retains a
`pageInfo` key: reading it raises `KeyError`.  Connections visited via
`next` keep their `pageInfo` (see the counterexample). -/
theorem C2_top_cursor_pageinfo_removed (S : VarMap → J) (q tokS : String)
    (mr fuel : Nat) (ts : CTree) (kwargs : VarMap) (d : J) (n : Nat)
    (ht : tokenOk (some tokS) = true)
    (hdiv : List.Pairwise (fun a b : String × CNode =>
      ¬ KPfx (strPath a.2.pathOf) (strPath b.2.pathOf) ∧
      ¬ KPfx (strPath b.2.pathOf) (strPath a.2.pathOf)) ts)
    (hnodups : ∀ cp ∈ ts, ∀ fs,
      getPathE (S kwargs) (strPath (cp.2 : CNode).pathOf) = .ok (.obj fs) →
      (fs.map Prod.fst).Nodup)
    (hrun : graphql (okServer S) q (some tokS) mr fuel (some ts) [] kwargs =
      .ok (d, n)) :
    ∀ cp ∈ ts, getPathE d (strPath (cp.2 : CNode).pathOf ++ [.str "pageInfo"]) =
      .error (.keyError "pageInfo") := by
  cases fuel with
  | zero => simp [graphql] at hrun
  | succ fl =>
    rw [graphql_okServer_step S q tokS mr fl _ [] kwargs ht] at hrun
    exact goCursors_pageinfo_removed _ ts kwargs (S kwargs) 1 d n hrun hdiv hnodups

theorem C2_top_cursor_pageinfo_removed_witness :
    getPathE (.obj [("a", .obj [("nodes",
        .arr [.obj [("b", mkConn (.s "T") true [.num 1, .num 2])]])])])
      (strPath (("c1", CNode.node ["a"] (some [("c2", .bare ["b"])])) :
        String × CNode).2.pathOf ++ [.str "pageInfo"]) =
      .error (.keyError "pageInfo") :=
  C2_top_cursor_pageinfo_removed srvInner "q" "t" 8 5
    [("c1", .node ["a"] (some [("c2", .bare ["b"])]))] []
    (.obj [("a", .obj [("nodes",
      .arr [.obj [("b", mkConn (.s "T") true [.num 1, .num 2])]])])]) 3
    rfl (by simp)
    (by
      intro cp hcp fs hfs
      simp at hcp
      subst hcp
      have hfs' : (Except.ok (J.obj [("pageInfo", mkPI (.s "A") false),
          ("nodes", .arr [.obj [("b", mkConn (.s "T") true [.num 1])]])]) :
          Except PyErr J) = .ok (.obj fs) := hfs
      injection hfs' with hfs'
      injection hfs' with hfs'
      subst hfs'
      decide)
    rfl
    ("c1", .node ["a"] (some [("c2", .bare ["b"])]))
    (List.mem_singleton.mpr rfl)

theorem goCursors_cons_singlepage
    (rec : Option CTree → List Key → VarMap → Except PyErr (J × Nat))
    (cname : String) (cn : CNode) (rest : CTree) (kwargs : VarMap)
    (data j1 : J) (cnt : Nat)
    (hsp : SinglePageConn data (cname, cn))
    (hpop : updatePathE data (strPath cn.pathOf) popPI = .ok j1) :
    goCursors rec ((cname, cn) :: rest) [] kwargs data cnt =
      goCursors rec rest [] kwargs j1 cnt := by
  obtain ⟨fs0, pif, elems, hg0, hpi0, hnp0, hnodes0, hleafs, helems⟩ := hsp
  obtain ⟨v, v', hv, hv', hdget⟩ := updatePathE_ok _ _ _ _ hpop
  rw [hg0] at hv
  injection hv with hv
  subst hv
  have hv'' : v' = .obj (removeJ fs0 "pageInfo") := by
    simp only [popPI] at hv'
    injection hv' with hv'
    exact hv'.symm
  subst hv''
  have hpiK : getKeyE (.obj fs0) (.str "pageInfo") = .ok pif := by
    simp [getKeyE, hpi0]
  cases hnx : cn.nextOf with
  | none =>
    simp [goCursors, hg0, hpiK, hpop, hnp0, truthy, hnx]
  | some nt =>
    have hK2 : getKeyE (.obj (removeJ fs0 "pageInfo")) (.str "nodes") = .ok (.arr elems) := by
      simp [getKeyE, lookupJ_removeJ_ne fs0 "pageInfo" "nodes" (by decide), hnodes0]
    have helem : ∀ k, k < elems.length →
        ∃ elem, getPathE j1 (strPath cn.pathOf ++ [.str "nodes", .idx k]) = .ok elem ∧
          checkRequired nt elem = .ok false := by
      intro k hk
      refine ⟨elems[k], ?_, ?_⟩
      · rw [getPathE_append, hdget]
        simp [getPathE, getKeyE, lookupJ_removeJ_ne fs0 "pageInfo" "nodes" (by decide),
          hnodes0, List.getElem?_eq_getElem hk]
      · refine checkRequired_false elems[k] nt ?_
        intro cp hcp
        have hmem : elems[k] ∈ elems := List.getElem_mem hk
        refine ⟨?_, helems elems[k] hmem cp (by rw [hnx]; exact hcp)⟩
        exact hleafs cp (by rw [hnx]; exact hcp)
    have hskip := goElems_skip rec nt (strPath cn.pathOf) kwargs j1 elems.length helem
      elems.length 0 cnt (by omega)
    simp [goCursors, hg0, hpiK, hpop, hnp0, truthy, hnx, hdget, hK2, hskip]

theorem goCursors_singlepage
    (rec : Option CTree → List Key → VarMap → Except PyErr (J × Nat)) :
    ∀ (ts : CTree) (kwargs : VarMap) (data : J) (cnt : Nat),
      List.Pairwise (fun a b : String × CNode =>
        ¬ KPfx (strPath a.2.pathOf) (strPath b.2.pathOf) ∧
        ¬ KPfx (strPath b.2.pathOf) (strPath a.2.pathOf)) ts →
      (∀ cp ∈ ts, SinglePageConn data cp) →
      ∃ d, goCursors rec ts [] kwargs data cnt = .ok (d, cnt) := by
  intro ts
  induction ts with
  | nil => intro kwargs data cnt _ _; exact ⟨data, rfl⟩
  | cons hd rest ih =>
    intro kwargs data cnt hdiv hsp
    obtain ⟨cname, cn⟩ := hd
    have hsphd := hsp _ (List.mem_cons_self _ _)
    obtain ⟨fs0, pif, elems, hg0, hpi0, hnp0, hnodes0, hleafs, helems⟩ := hsphd
    obtain ⟨j1, hpop⟩ := updatePathE_exists (strPath cn.pathOf) data (.obj fs0)
      (.obj (removeJ fs0 "pageInfo")) popPI hg0 rfl
    rw [goCursors_cons_singlepage rec cname cn rest kwargs data j1 cnt
      ⟨fs0, pif, elems, hg0, hpi0, hnp0, hnodes0, hleafs, helems⟩ hpop]
    refine ih kwargs j1 cnt (List.pairwise_cons.mp hdiv).2 ?_
    intro cp hcp
    obtain ⟨h1j, h2j⟩ := (List.pairwise_cons.mp hdiv).1 cp hcp
    have hread : getPathE j1 (strPath (cp.2 : CNode).pathOf) =
        getPathE data (strPath (cp.2 : CNode).pathOf) := by
      have := pop_frame_subtree hpop h2j h1j []
      simpa using this
    obtain ⟨fs, pif', elems', hg, hrest⟩ := hsp cp (List.mem_cons_of_mem _ hcp)
    exact ⟨fs, pif', elems', by rw [hread]; exact hg, hrest⟩

/-- C4 (amended): for every cursor tree with pairwise-divergent top-level
cursor paths whose nested cursors (if any) have no further nesting, and a
server whose relevant connections all report `hasNextPage = false`,
`graphql` issues exactly one HTTP request, and in the returned tree no
connection named by a top-level cursor retains a `pageInfo` key; nested
connections named under `next` keep theirs (see the counterexample). -/
theorem C4_all_single_page_one_request (S : VarMap → J) (q tokS : String)
    (mr fuel : Nat) (ts : CTree) (kwargs : VarMap) (d : J) (n : Nat)
    (ht : tokenOk (some tokS) = true)
    (hdiv : List.Pairwise (fun a b : String × CNode =>
      ¬ KPfx (strPath a.2.pathOf) (strPath b.2.pathOf) ∧
      ¬ KPfx (strPath b.2.pathOf) (strPath a.2.pathOf)) ts)
    (hnodups : ∀ cp ∈ ts, ∀ fs,
      getPathE (S kwargs) (strPath (cp.2 : CNode).pathOf) = .ok (.obj fs) →
      (fs.map Prod.fst).Nodup)
    (hsp : ∀ cp ∈ ts, SinglePageConn (S kwargs) cp)
    (hrun : graphql (okServer S) q (some tokS) mr (fuel + 1) (some ts) [] kwargs =
      .ok (d, n)) :
    n = 1 ∧ ∀ cp ∈ ts,
      getPathE d (strPath (cp.2 : CNode).pathOf ++ [.str "pageInfo"]) =
        .error (.keyError "pageInfo") := by
  rw [graphql_okServer_step S q tokS mr fuel _ [] kwargs ht] at hrun
  obtain ⟨d0, hd0⟩ := goCursors_singlepage
    (graphql (okServer S) q (some tokS) mr fuel) ts kwargs (S kwargs) 1 hdiv hsp
  have he : (Except.ok (d, n) : Except PyErr (J × Nat)) = .ok (d0, 1) :=
    hrun.symm.trans hd0
  injection he with he
  injection he with hd hn
  refine ⟨hn, ?_⟩
  rw [hd]
  exact goCursors_pageinfo_removed _ ts kwargs (S kwargs) 1 d0 1 hd0 hdiv hnodups

theorem C4_all_single_page_one_request_witness :
    getPathE (.obj [("a", .obj [("nodes",
        .arr [.obj [("b", mkConn (.s "B") false [.num 1])]])])])
      (strPath (("c1", CNode.node ["a"] (some [("c2", .bare ["b"])])) :
        String × CNode).2.pathOf ++ [.str "pageInfo"]) =
      .error (.keyError "pageInfo") :=
  (C4_all_single_page_one_request srvFlat "q" "t" 8 4
    [("c1", .node ["a"] (some [("c2", .bare ["b"])]))] []
    (.obj [("a", .obj [("nodes",
      .arr [.obj [("b", mkConn (.s "B") false [.num 1])]])])]) 1
    rfl (by simp)
    (by
      intro cp hcp fs hfs
      simp at hcp
      subst hcp
      have hfs' : (Except.ok (J.obj [("pageInfo", mkPI (.s "A") false),
          ("nodes", .arr [.obj [("b", mkConn (.s "B") false [.num 1])]])]) :
          Except PyErr J) = .ok (.obj fs) := hfs
      injection hfs' with hfs'
      injection hfs' with hfs'
      subst hfs'
      decide)
    (by
      intro cp hcp
      simp at hcp
      subst hcp
      refine ⟨[("pageInfo", mkPI (.s "A") false),
        ("nodes", .arr [.obj [("b", mkConn (.s "B") false [.num 1])]])],
        mkPI (.s "A") false, [.obj [("b", mkConn (.s "B") false [.num 1])]],
        rfl, rfl, rfl, rfl, ?_, ?_⟩
      · intro cq hcq
        simp [CNode.nextOf] at hcq
        subst hcq
        rfl
      · intro elem helem cq hcq
        simp [CNode.nextOf] at hcq
        simp at helem
        subst helem
        subst hcq
        exact ⟨[("pageInfo", mkPI (.s "B") false), ("nodes", .arr [.num 1])],
          mkPI (.s "B") false, rfl, rfl, rfl⟩)
    rfl).2
    ("c1", .node ["a"] (some [("c2", .bare ["b"])]))
    (List.mem_singleton.mpr rfl)

theorem ServesPages_transfer (S : VarMap → J) (c : String) (p : List String)
    (hdep : ∀ v w : VarMap, lookupJ v c = lookupJ w c →
      getPathE (S v) (strPath p) = getPathE (S w) (strPath p)) :
    ∀ (pages : List Page) (v w : VarMap), lookupJ v c = lookupJ w c →
      ServesPages S c p v pages → ServesPages S c p w pages := by
  intro pages
  induction pages with
  | nil =>
    intro v w _ _
    trivial
  | cons pg rest ih =>
    intro v w hvw hs
    obtain ⟨⟨fs, hg, hpi, hn⟩, hrest⟩ := hs
    refine ⟨⟨fs, ?_, hpi, hn⟩, ?_⟩
    · rw [← hdep v w hvw]
      exact hg
    · refine ih (setJ v c pg.endCursor) (setJ w c pg.endCursor) ?_ hrest
      rw [lookupJ_setJ_self, lookupJ_setJ_self]

theorem ServesFrom_of_ServesPages (S : VarMap → J) (c : String) (p : List String)
    (v : VarMap) :
    ∀ pages, ServesPages S c p v pages → ServesFrom S c p (S v) v pages := by
  intro pages
  cases pages with
  | nil =>
    intro _
    trivial
  | cons pg rest =>
    intro hs
    obtain ⟨h1, h2⟩ := hs
    exact ⟨h1, h2⟩

theorem ServesFrom_retarget (S : VarMap → J) (c : String) (p : List String)
    (data data' : J) (v : VarMap)
    (hrd : getPathE data' (strPath p) = getPathE data (strPath p)) :
    ∀ pages, ServesFrom S c p data v pages → ServesFrom S c p data' v pages := by
  intro pages
  cases pages with
  | nil =>
    intro _
    trivial
  | cons pg rest =>
    intro hs
    obtain ⟨⟨fs, hg, hpi, hn⟩, hrest⟩ := hs
    exact ⟨⟨fs, by rw [hrd]; exact hg, hpi, hn⟩, hrest⟩

theorem ServesFrom_rebind (S : VarMap → J) (c : String) (p : List String)
    (data : J) (v w : VarMap)
    (hdep : ∀ x y : VarMap, lookupJ x c = lookupJ y c →
      getPathE (S x) (strPath p) = getPathE (S y) (strPath p)) :
    ∀ pages, ServesFrom S c p data v pages → ServesFrom S c p data w pages := by
  intro pages
  cases pages with
  | nil =>
    intro _
    trivial
  | cons pg rest =>
    intro hs
    obtain ⟨hfst, hrest⟩ := hs
    refine ⟨hfst, ServesPages_transfer S c p hdep rest _ _ ?_ hrest⟩
    rw [lookupJ_setJ_self, lookupJ_setJ_self]

theorem goCursors_bare_concat (S : VarMap → J) (q tokS : String) (mr fl : Nat)
    (Pg : String × CNode → List Page) (ht : tokenOk (some tokS) = true) :
    ∀ (ts : CTree) (kwargs : VarMap) (data : J) (cnt : Nat) (d : J) (n : Nat),
      goCursors (graphql (okServer S) q (some tokS) mr fl) ts [] kwargs data cnt =
        .ok (d, n) →
      List.Pairwise (fun a b : String × CNode =>
        ¬ KPfx (strPath a.2.pathOf) (strPath b.2.pathOf) ∧
        ¬ KPfx (strPath b.2.pathOf) (strPath a.2.pathOf)) ts →
      (∀ cp ∈ ts, (cp.2 : CNode).nextOf = none) →
      (∀ cp ∈ ts, ∀ v w : VarMap, lookupJ v cp.1 = lookupJ w cp.1 →
        getPathE (S v) (strPath (cp.2 : CNode).pathOf) =
          getPathE (S w) (strPath (cp.2 : CNode).pathOf)) →
      (∀ cp ∈ ts, Pg cp ≠ [] ∧ ChainOk (Pg cp) ∧ (Pg cp).length ≤ fl + 1 ∧
        ServesFrom S cp.1 (cp.2 : CNode).pathOf data kwargs (Pg cp)) →
      ∀ cp ∈ ts, getPathE d (strPath (cp.2 : CNode).pathOf ++ [.str "nodes"]) =
        .ok (.arr ((Pg cp).map Page.nodes).flatten) := by
  intro ts
  induction ts with
  | nil =>
    intro kwargs data cnt d n h _ _ _ _ cp hcp
    exact absurd hcp (List.not_mem_nil cp)
  | cons hd rest ih =>
    intro kwargs data cnt d n h hdiv hbare hdep hpack
    obtain ⟨cname, cn⟩ := hd
    have hdivhead := (List.pairwise_cons.mp hdiv).1
    have hdivrest := (List.pairwise_cons.mp hdiv).2
    obtain ⟨hne, hchain, hlen, hsf⟩ := hpack (cname, cn) (List.mem_cons_self _ _)
    have hnxnone : cn.nextOf = none := hbare (cname, cn) (List.mem_cons_self _ _)
    have hmain : ∀ (data₁ : J) (kwargs₁ : VarMap) (cnt₁ : Nat),
        goCursors (graphql (okServer S) q (some tokS) mr fl) rest [] kwargs₁ data₁ cnt₁ =
          .ok (d, n) →
        getPathE data₁ (strPath cn.pathOf ++ [.str "nodes"]) =
          .ok (.arr ((Pg (cname, cn)).map Page.nodes).flatten) →
        (∀ cp ∈ rest, ServesFrom S cp.1 (cp.2 : CNode).pathOf data₁ kwargs₁ (Pg cp)) →
        ∀ cp ∈ (cname, cn) :: rest,
          getPathE d (strPath (cp.2 : CNode).pathOf ++ [.str "nodes"]) =
            .ok (.arr ((Pg cp).map Page.nodes).flatten) := by
      intro data₁ kwargs₁ cnt₁ hrest hnfact hsfs cp hcp
      rcases List.mem_cons.mp hcp with rfl | hcp'
      · have hframe := goCursors_frame (graphql (okServer S) q (some tokS) mr fl) rest
          kwargs₁ data₁ cnt₁ d n hrest
          (strPath cn.pathOf ++ [.str "nodes"]) (by
            intro cpj hcpj
            obtain ⟨h1j, h2j⟩ := hdivhead cpj hcpj
            exact ⟨div_ext_left h1j _, div_ext_right h1j h2j _ _,
              div_ext_right h1j h2j _ _⟩)
        rw [hframe]
        exact hnfact
      · exact ih kwargs₁ data₁ cnt₁ d n hrest hdivrest
          (fun cq hcq => hbare cq (List.mem_cons_of_mem _ hcq))
          (fun cq hcq => hdep cq (List.mem_cons_of_mem _ hcq))
          (fun cq hcq => ⟨(hpack cq (List.mem_cons_of_mem _ hcq)).1,
            (hpack cq (List.mem_cons_of_mem _ hcq)).2.1,
            (hpack cq (List.mem_cons_of_mem _ hcq)).2.2.1,
            hsfs cq hcq⟩)
          cp hcp'
    cases hPg : Pg (cname, cn) with
    | nil => exact absurd hPg hne
    | cons pg restP =>
      rw [hPg] at hsf hchain hlen
      obtain ⟨⟨fs0, hg0, hpi0, hn0⟩, hsp'⟩ := hsf
      obtain ⟨hnpEq, hchain'⟩ := hchain
      simp only [goCursors, List.isEmpty_nil, if_true] at h
      cases hg : getPathE data (strPath cn.pathOf) with
      | error e =>
        simp only [hg] at h
        exact Except.noConfusion h
      | ok obj =>
        simp only [hg] at h
        have hobj : obj = .obj fs0 := by
          have h2 := hg0.symm.trans hg
          injection h2 with h2
          exact h2.symm
        subst hobj
        cases hpiC : getKeyE (.obj fs0) (.str "pageInfo") with
        | error e =>
          simp only [hpiC] at h
          exact Except.noConfusion h
        | ok pi =>
          simp only [hpiC] at h
          have hpiV : pi = mkPI pg.endCursor pg.hasNextPage := by
            have hx : getKeyE (.obj fs0) (.str "pageInfo") =
                .ok (mkPI pg.endCursor pg.hasNextPage) := by
              simp [getKeyE, hpi0]
            have h2 := hx.symm.trans hpiC
            injection h2 with h2
            exact h2.symm
          subst hpiV
          cases hup : updatePathE data (strPath cn.pathOf) popPI with
          | error e =>
            simp only [hup] at h
            exact Except.noConfusion h
          | ok j1 =>
            simp only [hup] at h
            obtain ⟨v, v', hv, hv', hj1get⟩ := updatePathE_ok _ _ _ _ hup
            rw [hg0] at hv
            injection hv with hv
            subst hv
            have hv'' : v' = .obj (removeJ fs0 "pageInfo") := by
              simp only [popPI] at hv'
              injection hv' with hv'
              exact hv'.symm
            subst hv''
            have hnodes1 : getPathE j1 (strPath cn.pathOf ++ [.str "nodes"]) =
                .ok (.arr pg.nodes) :=
              getPathE_key_after_pop j1 _ fs0 "nodes" (.arr pg.nodes) (by decide)
                hj1get hn0
            have hread1 : ∀ cp ∈ rest, getPathE j1 (strPath (cp.2 : CNode).pathOf) =
                getPathE data (strPath (cp.2 : CNode).pathOf) := by
              intro cpj hcpj
              obtain ⟨h1j, h2j⟩ := hdivhead cpj hcpj
              have h3 := pop_frame_subtree hup h2j h1j []
              simpa using h3
            cases hnpC : getKeyE (mkPI pg.endCursor pg.hasNextPage)
                (.str "hasNextPage") with
            | error e =>
              simp only [hnpC] at h
              exact Except.noConfusion h
            | ok hnp =>
              simp only [hnpC] at h
              have hnpV : hnp = .b pg.hasNextPage := by
                have hx : getKeyE (mkPI pg.endCursor pg.hasNextPage)
                    (.str "hasNextPage") = .ok (.b pg.hasNextPage) := by
                  simp [mkPI, getKeyE, lookupJ]
                have h2 := hx.symm.trans hnpC
                injection h2 with h2
                exact h2.symm
              subst hnpV
              cases restP with
              | nil =>
                simp only [List.isEmpty_nil, Bool.not_true] at hnpEq
                rw [hnpEq] at h
                have htr : ¬ (truthy (J.b false) = true) := by decide
                rw [if_neg htr] at h
                simp only [hnxnone] at h
                refine hmain j1 kwargs cnt h ?_ ?_
                · rw [hPg]
                  simpa using hnodes1
                · intro cq hcq
                  exact ServesFrom_retarget S cq.1 (cq.2 : CNode).pathOf data j1 kwargs
                    (hread1 cq hcq) (Pg cq)
                    ((hpack cq (List.mem_cons_of_mem _ hcq)).2.2.2)
              | cons r0 restP' =>
                simp only [List.isEmpty_cons, Bool.not_false] at hnpEq
                rw [hnpEq] at h
                have htr : truthy (J.b true) = true := rfl
                rw [if_pos htr] at h
                cases hecC : getKeyE (mkPI pg.endCursor true) (.str "endCursor") with
                | error e =>
                  simp only [hecC] at h
                  exact Except.noConfusion h
                | ok endCur =>
                  simp only [hecC] at h
                  have hecV : endCur = pg.endCursor := by
                    have hx : getKeyE (mkPI pg.endCursor true) (.str "endCursor") =
                        .ok pg.endCursor := by
                      simp [mkPI, getKeyE, lookupJ]
                    have h2 := hx.symm.trans hecC
                    injection h2 with h2
                    exact h2.symm
                  subst hecV
                  have hlen' : (r0 :: restP').length ≤ fl := by
                    simp only [List.length_cons] at hlen ⊢
                    omega
                  obtain ⟨d2, hd2run, hd2n⟩ := graphql_bare_pages S q tokS mr cname cn
                    hnxnone ht (r0 :: restP') (setJ kwargs cname pg.endCursor) fl
                    (by simp) hchain' hsp' hlen'
                  cases hrec : graphql (okServer S) q (some tokS) mr fl
                      (some [(cname, cn)]) [] (setJ kwargs cname pg.endCursor) with
                  | error e =>
                    simp only [hrec] at h
                    exact Except.noConfusion h
                  | ok pr =>
                    obtain ⟨nextD, c2⟩ := pr
                    simp only [hrec] at h
                    have hid := hrec.symm.trans hd2run
                    injection hid with hid
                    injection hid with hidD hidC
                    subst hidD
                    subst hidC
                    cases hN : getPathE nextD (strPath cn.pathOf) with
                    | error e =>
                      simp only [hN] at h
                      exact Except.noConfusion h
                    | ok nextObj =>
                      simp only [hN] at h
                      cases hK : getKeyE nextObj (.str "nodes") with
                      | error e =>
                        simp only [hK] at h
                        exact Except.noConfusion h
                      | ok nextNodes =>
                        simp only [hK] at h
                        have hKV : nextNodes =
                            .arr ((r0 :: restP').map Page.nodes).flatten := by
                          rw [getPathE_append] at hd2n
                          rw [hN] at hd2n
                          simp only [getPathE] at hd2n
                          rw [hK] at hd2n
                          simp only [getPathE] at hd2n
                          exact Except.ok.inj hd2n
                        subst hKV
                        cases hX : updatePathE j1 (strPath cn.pathOf ++ [.str "nodes"])
                            (extendF (.arr ((r0 :: restP').map Page.nodes).flatten)) with
                        | error e =>
                          simp only [hX] at h
                          exact Except.noConfusion h
                        | ok j2 =>
                          simp only [hX] at h
                          obtain ⟨u, u', hu, hu', hj2get⟩ := updatePathE_ok _ _ _ _ hX
                          rw [hnodes1] at hu
                          injection hu with hu
                          subst hu
                          have hu'2 : u' = .arr (pg.nodes ++
                              ((r0 :: restP').map Page.nodes).flatten) := by
                            simp only [extendF] at hu'
                            injection hu' with hu'
                            exact hu'.symm
                          subst hu'2
                          refine hmain j2 (setJ kwargs cname pg.endCursor) _ h ?_ ?_
                          · rw [hPg, hj2get]
                            simp
                          · intro cq hcq
                            obtain ⟨h1j, h2j⟩ := hdivhead cq hcq
                            have hstep := updatePathE_frame _ _ _ _
                              (strPath (cq.2 : CNode).pathOf) hX
                              (div_ext_left h1j [.str "nodes"])
                              (div_concat_right h1j h2j (.str "nodes"))
                            have hrd : getPathE j2 (strPath (cq.2 : CNode).pathOf) =
                                getPathE data (strPath (cq.2 : CNode).pathOf) := by
                              rw [hstep]
                              exact hread1 cq hcq
                            exact ServesFrom_rebind S cq.1 (cq.2 : CNode).pathOf j2
                              kwargs (setJ kwargs cname pg.endCursor)
                              (hdep cq (List.mem_cons_of_mem _ hcq)) (Pg cq)
                              (ServesFrom_retarget S cq.1 (cq.2 : CNode).pathOf data j2
                                kwargs hrd (Pg cq)
                                ((hpack cq (List.mem_cons_of_mem _ hcq)).2.2.2))

/-- C1 (amended): for every cursor tree of sibling top-level cursors with
pairwise-divergent paths and no nested cursors (`next` absent), and every
server serving a consistent page chain for each named connection (the
content at each connection depending only on that connection's own cursor
variable), the returned `nodes` sequence at every named connection equals
the ordered concatenation of the per-page `nodes` lists for that connection
(page order following the cursor sequence, order within each page
preserved).  Nodes with `next` present are excluded: nested depagination
rewrites elements of the merged list in place (see the counterexample). -/
theorem C1_sibling_cursors_nodes_concat (S : VarMap → J) (q tokS : String)
    (mr fuel : Nat) (ts : CTree) (Pg : String × CNode → List Page)
    (kwargs : VarMap) (d : J) (n : Nat)
    (ht : tokenOk (some tokS) = true)
    (hdiv : List.Pairwise (fun a b : String × CNode =>
      ¬ KPfx (strPath a.2.pathOf) (strPath b.2.pathOf) ∧
      ¬ KPfx (strPath b.2.pathOf) (strPath a.2.pathOf)) ts)
    (hbare : ∀ cp ∈ ts, (cp.2 : CNode).nextOf = none)
    (hdep : ∀ cp ∈ ts, ∀ v w : VarMap, lookupJ v cp.1 = lookupJ w cp.1 →
      getPathE (S v) (strPath (cp.2 : CNode).pathOf) =
        getPathE (S w) (strPath (cp.2 : CNode).pathOf))
    (hpg : ∀ cp ∈ ts, Pg cp ≠ [] ∧ ChainOk (Pg cp) ∧ (Pg cp).length ≤ fuel ∧
      ServesPages S cp.1 (cp.2 : CNode).pathOf kwargs (Pg cp))
    (hrun : graphql (okServer S) q (some tokS) mr fuel (some ts) [] kwargs =
      .ok (d, n)) :
    ∀ cp ∈ ts, getPathE d (strPath (cp.2 : CNode).pathOf ++ [.str "nodes"]) =
      .ok (.arr ((Pg cp).map Page.nodes).flatten) := by
  cases fuel with
  | zero => simp [graphql] at hrun
  | succ fl =>
    rw [graphql_okServer_step S q tokS mr fl _ [] kwargs ht] at hrun
    exact goCursors_bare_concat S q tokS mr fl Pg ht ts kwargs (S kwargs) 1 d n hrun
      hdiv hbare hdep
      (fun cp hcp => ⟨(hpg cp hcp).1, (hpg cp hcp).2.1, (hpg cp hcp).2.2.1,
        ServesFrom_of_ServesPages S cp.1 (cp.2 : CNode).pathOf kwargs (Pg cp)
          (hpg cp hcp).2.2.2⟩)

theorem C1_sibling_cursors_nodes_concat_witness :
    getPathE (.obj [("a", .obj [("nodes", .arr [.num 1, .num 2])]),
        ("b", .obj [("nodes", .arr [.num 7])])])
      (strPath ((("ca", CNode.bare ["a"]) : String × CNode).2 : CNode).pathOf ++
        [.str "nodes"]) =
      .ok (.arr ((pgTwo ("ca", .bare ["a"])).map Page.nodes).flatten) ∧
    getPathE (.obj [("a", .obj [("nodes", .arr [.num 1, .num 2])]),
        ("b", .obj [("nodes", .arr [.num 7])])])
      (strPath ((("cb", CNode.bare ["b"]) : String × CNode).2 : CNode).pathOf ++
        [.str "nodes"]) =
      .ok (.arr ((pgTwo ("cb", .bare ["b"])).map Page.nodes).flatten) := by
  have hdivW : List.Pairwise (fun a b : String × CNode =>
      ¬ KPfx (strPath a.2.pathOf) (strPath b.2.pathOf) ∧
      ¬ KPfx (strPath b.2.pathOf) (strPath a.2.pathOf)) ctTwo := by
    decide
  have hbareW : ∀ cp ∈ ctTwo, (cp.2 : CNode).nextOf = none := by
    intro cp hcp
    simp only [ctTwo, List.mem_cons, List.not_mem_nil, or_false] at hcp
    rcases hcp with rfl | rfl <;> rfl
  have hdepW : ∀ cp ∈ ctTwo, ∀ v w : VarMap, lookupJ v cp.1 = lookupJ w cp.1 →
      getPathE (srvTwo v) (strPath (cp.2 : CNode).pathOf) =
        getPathE (srvTwo w) (strPath (cp.2 : CNode).pathOf) := by
    intro cp hcp v w hvw
    simp only [ctTwo, List.mem_cons, List.not_mem_nil, or_false] at hcp
    rcases hcp with rfl | rfl
    · have hvw' : lookupJ v "ca" = lookupJ w "ca" := hvw
      simp only [srvTwo]
      rw [hvw']
    · simp [srvTwo, CNode.pathOf, strPath, getPathE, getKeyE, lookupJ]
  have hpgW : ∀ cp ∈ ctTwo, pgTwo cp ≠ [] ∧ ChainOk (pgTwo cp) ∧
      (pgTwo cp).length ≤ 3 ∧
      ServesPages srvTwo cp.1 (cp.2 : CNode).pathOf [] (pgTwo cp) := by
    intro cp hcp
    simp only [ctTwo, List.mem_cons, List.not_mem_nil, or_false] at hcp
    rcases hcp with rfl | rfl
    · exact ⟨by simp [pgTwo], ⟨rfl, rfl, trivial⟩, by simp [pgTwo],
        ⟨⟨[("pageInfo", mkPI (.s "A1") true), ("nodes", .arr [.num 1])],
          rfl, rfl, rfl⟩,
         ⟨[("pageInfo", mkPI .null false), ("nodes", .arr [.num 2])],
          rfl, rfl, rfl⟩,
         trivial⟩⟩
    · exact ⟨by simp [pgTwo], ⟨rfl, trivial⟩, by simp [pgTwo],
        ⟨⟨[("pageInfo", mkPI .null false), ("nodes", .arr [.num 7])],
          rfl, rfl, rfl⟩,
         trivial⟩⟩
  exact ⟨C1_sibling_cursors_nodes_concat srvTwo "q" "t" 8 3 ctTwo pgTwo []
      (.obj [("a", .obj [("nodes", .arr [.num 1, .num 2])]),
        ("b", .obj [("nodes", .arr [.num 7])])]) 2
      rfl hdivW hbareW hdepW hpgW rfl
      ("ca", .bare ["a"]) (List.mem_cons_self _ _),
    C1_sibling_cursors_nodes_concat srvTwo "q" "t" 8 3 ctTwo pgTwo []
      (.obj [("a", .obj [("nodes", .arr [.num 1, .num 2])]),
        ("b", .obj [("nodes", .arr [.num 7])])]) 2
      rfl hdivW hbareW hdepW hpgW rfl
      ("cb", .bare ["b"]) (List.mem_cons_of_mem _ (List.mem_cons_self _ _))⟩
